/-
Verification of the SpyBOAT processing core (src/spyboat/processing.py).

The movie data model, `down_sample`, `transform_stack` and `run_parallel`
are embedded shallowly over `List` / `ℚ`.  The external collaborators
(skimage rescale, the pyboat spectral library, numpy std / angle) are
abstracted as function parameters, so every theorem below quantifies over
their behaviour; the parts that belong to this repository (the period
grid, the pixel loop, the row split, the worker dispatch, the concatenate,
the error branches) are translated literally from the source.
-/
import Mathlib

set_option maxHeartbeats 1000000

namespace SpyBOAT

universe u v w

/-! ### Generic list lemmas used by the development -/

theorem tailGetD {α : Type u} (l : List α) (t : ℕ) (d : α) :
    l.tail.getD t d = l.getD (t + 1) d := by
  cases l <;> simp [List.getD]

theorem headDGetD {α : Type u} (l : List α) (d : α) :
    l.headD d = l.getD 0 d := by
  cases l <;> rfl

theorem getDSetEq {α : Type u} (l : List α) (i : ℕ) (v d : α) (h : i < l.length) :
    (l.set i v).getD i d = v := by
  induction l generalizing i with
  | nil => simp at h
  | cons a t ih =>
    cases i with
    | zero => rfl
    | succ j => exact ih j (by simpa using h)

theorem getDSetNe {α : Type u} (l : List α) (i j : ℕ) (v d : α) (h : i ≠ j) :
    (l.set i v).getD j d = l.getD j d := by
  induction l generalizing i j with
  | nil => simp
  | cons a t ih =>
    cases i with
    | zero =>
      cases j with
      | zero => exact absurd rfl h
      | succ k => rfl
    | succ i2 =>
      cases j with
      | zero => rfl
      | succ k => exact ih i2 k (fun he => h (by omega))

theorem setOfLenLe {α : Type u} (l : List α) (i : ℕ) (v : α) (h : l.length ≤ i) :
    l.set i v = l := by
  induction l generalizing i with
  | nil => rfl
  | cons a t ih =>
    cases i with
    | zero => simp at h
    | succ j => simpa using ih j (by simpa using h)

theorem getDTakeLt {α : Type u} (l : List α) (s i : ℕ) (d : α) (h : i < s) :
    (l.take s).getD i d = l.getD i d := by
  induction l generalizing s i with
  | nil => simp
  | cons a t ih =>
    cases s with
    | zero => omega
    | succ s2 =>
      cases i with
      | zero => rfl
      | succ i2 => exact ih s2 i2 (by omega)

theorem getDDrop {α : Type u} (l : List α) (s i : ℕ) (d : α) :
    (l.drop s).getD i d = l.getD (s + i) d := by
  induction l generalizing s with
  | nil => simp
  | cons a t ih =>
    cases s with
    | zero => simp
    | succ s2 =>
      have h2 : s2 + 1 + i = (s2 + i) + 1 := by omega
      rw [h2]
      simp only [List.drop_succ_cons, List.getD_cons_succ]
      exact ih s2

theorem getDAppendLt {α : Type u} (a b : List α) (i : ℕ) (d : α) (h : i < a.length) :
    (a ++ b).getD i d = a.getD i d := by
  induction a generalizing i with
  | nil => simp at h
  | cons x t ih =>
    cases i with
    | zero => rfl
    | succ j => exact ih j (by simpa using h)

theorem getDAppendGe {α : Type u} (a b : List α) (i : ℕ) (d : α) (h : a.length ≤ i) :
    (a ++ b).getD i d = b.getD (i - a.length) d := by
  induction a generalizing i with
  | nil => simp
  | cons x t ih =>
    cases i with
    | zero => simp at h
    | succ j =>
      have := ih j (by simpa using h)
      simpa using this

theorem getDZipWith {α : Type u} {β : Type v} {γ : Type w}
    (f : α → β → γ) (A : List α) (B : List β) (t : ℕ) (da : α) (db : β) (dc : γ)
    (hA : t < A.length) (hB : t < B.length) :
    (List.zipWith f A B).getD t dc = f (A.getD t da) (B.getD t db) := by
  induction A generalizing B t with
  | nil => simp at hA
  | cons a A2 ih =>
    cases B with
    | nil => simp at hB
    | cons b B2 =>
      cases t with
      | zero => rfl
      | succ t2 => exact ih B2 t2 (by simpa using hA) (by simpa using hB)

theorem getDMemOf {α : Type u} (l : List α) (i : ℕ) (d : α) (h : i < l.length) :
    l.getD i d ∈ l := by
  induction l generalizing i with
  | nil => simp at h
  | cons a t ih =>
    cases i with
    | zero => simp [List.getD]
    | succ j => exact List.mem_cons_of_mem a (ih j (by simpa using h))

theorem getDMapOf {α : Type u} {β : Type v} (f : α → β) (l : List α) (i : ℕ)
    (d : α) (db : β) (h : i < l.length) :
    (l.map f).getD i db = f (l.getD i d) := by
  induction l generalizing i with
  | nil => simp at h
  | cons a t ih =>
    cases i with
    | zero => rfl
    | succ j => exact ih j (by simpa using h)

theorem getDRangeOf (n i : ℕ) (d : ℕ) (h : i < n) :
    (List.range n).getD i d = i := by
  rw [List.getD_eq_getElem _ _ (by simpa using h)]
  exact List.getElem_range _ _

theorem mapCongrMem {α : Type u} {β : Type v} {f g : α → β} (l : List α)
    (h : ∀ a ∈ l, f a = g a) : l.map f = l.map g := by
  induction l with
  | nil => rfl
  | cons a t ih =>
    simp only [List.map_cons]
    rw [h a (List.mem_cons_self a t), ih (fun b hb => h b (List.mem_cons_of_mem a hb))]

theorem mapEqSelf {α : Type u} {f : α → α} (l : List α)
    (h : ∀ a ∈ l, f a = a) : l.map f = l := by
  induction l with
  | nil => rfl
  | cons a t ih =>
    simp only [List.map_cons]
    rw [h a (List.mem_cons_self a t), ih (fun b hb => h b (List.mem_cons_of_mem a hb))]

theorem zipWithMapSame {α : Type u} {β : Type v}
    (f : β → β → β) (g h : α → β) (l : List α) :
    List.zipWith f (l.map g) (l.map h) = l.map (fun a => f (g a) (h a)) := by
  induction l with
  | nil => rfl
  | cons a t ih => simp [ih]

theorem takeOfLenLe {α : Type u} (l : List α) (s : ℕ) (h : l.length ≤ s) :
    l.take s = l := by
  induction l generalizing s with
  | nil => simp
  | cons a t ih =>
    cases s with
    | zero => simp at h
    | succ s2 => simpa using ih s2 (by simpa using h)

theorem memOfMemTake {α : Type u} {a : α} {l : List α} {s : ℕ}
    (h : a ∈ l.take s) : a ∈ l :=
  (List.take_sublist s l).subset h

theorem memOfMemDrop {α : Type u} {a : α} {l : List α} {s : ℕ}
    (h : a ∈ l.drop s) : a ∈ l :=
  (List.drop_sublist s l).subset h

theorem memOfMemSet {α : Type u} {a v : α} {l : List α} {i : ℕ}
    (h : a ∈ l.set i v) : a ∈ l ∨ a = v := by
  induction l generalizing i with
  | nil => simp at h
  | cons x t ih =>
    cases i with
    | zero =>
      rcases List.mem_cons.mp h with h1 | h1
      · exact Or.inr h1
      · exact Or.inl (List.mem_cons_of_mem x h1)
    | succ j =>
      rcases List.mem_cons.mp h with h1 | h1
      · exact Or.inl (by simp [h1])
      · rcases ih h1 with h2 | h2
        · exact Or.inl (List.mem_cons_of_mem x h2)
        · exact Or.inr h2

/-! ### Data model

A movie is a 3-d array with axes (frame, row, column); values are modelled
by `ℚ`.  `getEntry m t y x` is `m[t, y, x]` with numpy-style reads turned
into defaulted list reads. -/

abbrev Mov : Type := List (List (List ℚ))

def getEntry (m : Mov) (t y x : ℕ) : ℚ :=
  ((m.getD t []).getD y []).getD x 0

/-- `movie.shape[1]`, read off the nested-list representation. -/
def dim1 (m : Mov) : ℕ := (m.headD []).length

/-- `movie.shape[2]`, read off the nested-list representation. -/
def dim2 (m : Mov) : ℕ := ((m.headD []).headD []).length

/-- `np.zeros((N, H, W))`. -/
def zerosMovie (N H W : ℕ) : Mov :=
  List.replicate N (List.replicate H (List.replicate W 0))

/-- The movie is a rectangular array of shape `(N, H, W)`. -/
def HasShape (m : Mov) (N H W : ℕ) : Prop :=
  m.length = N ∧ ∀ frame ∈ m, frame.length = H ∧ ∀ row ∈ frame, row.length = W

instance (m : Mov) (N H W : ℕ) : Decidable (HasShape m N H W) := by
  unfold HasShape; infer_instance

/-- `movie[:, y, x]`: the time series of pixel `(x, y)`. -/
def pixelSeries (m : Mov) (y x : ℕ) : List ℚ :=
  m.map (fun frame => (frame.getD y []).getD x 0)

/-- numpy dtypes occurring in the pipeline (`np.zeros` defaults to float64,
the output arrays are allocated as `np.float32`). -/
inductive DType where
  | float32
  | float64
deriving DecidableEq

/-- An output array: its dtype tag together with its contents. -/
structure OutMovie where
  dtype : DType
  data : Mov
deriving DecidableEq

/-- The quadruple of output arrays `(phase, period, power, amplitude)`. -/
structure Out4 where
  phase : OutMovie
  period : OutMovie
  power : OutMovie
  amplitude : OutMovie
deriving DecidableEq

/-! ### External collaborators

The pyboat / numpy calls made by `transform_stack` (`pb.sinc_smooth`,
`pb.normalize_with_envelope`, `pb.compute_spectrum`, `pb.get_maxRidge_ys`,
`pb.core.power_to_amplitude`, `np.std`, `np.angle`) are abstracted as an
arbitrary structure of total functions; complex numbers are modelled as
real/imaginary pairs.  Every theorem quantifies over this structure. -/

structure SpectralLib where
  sinc_smooth : List ℚ → ℚ → ℚ → List ℚ
  normalize_with_envelope : List ℚ → ℚ → ℚ → List ℚ
  compute_spectrum : List ℚ → ℚ → List ℚ → List (List ℚ) × List (List (ℚ × ℚ))
  get_maxRidge_ys : List (List ℚ) → List ℕ
  power_to_amplitude : List ℚ → List ℚ → ℚ → ℚ → List ℚ
  np_std : List ℚ → ℚ
  np_angle : ℚ × ℚ → ℚ

/-- Elementwise `signal - trend` (numpy broadcasting on equal-length 1-d
arrays). -/
def listSub (a b : List ℚ) : List ℚ := List.zipWith (fun p q => p - q) a b

/-- The body of the pixel loop of `transform_stack` (processing.py lines
150-173): detrend if `T_c` is given, normalize if `L` is given, transform,
extract the ridge, convert powers to amplitudes.  Returns
`(phases, ridge_periods, powers, amplitudes)`. -/
def pixelResult (lib : SpectralLib) (periods : List ℚ) (dt : ℚ)
    (T_c L : Option ℚ) (input_vec : List ℚ) :
    List ℚ × List ℚ × List ℚ × List ℚ :=
  let signal1 : List ℚ :=
    match T_c with
    | some tc => listSub input_vec (lib.sinc_smooth input_vec tc dt)
    | none => input_vec
  let signal : List ℚ :=
    match L with
    | some wl => lib.normalize_with_envelope signal1 wl dt
    | none => signal1
  let sigma := lib.np_std signal
  let Nt := signal.length
  let mw := lib.compute_spectrum signal dt periods
  let modulus := mw.1
  let wlet := mw.2
  let ridge_ys := lib.get_maxRidge_ys modulus
  let ridge_periods := ridge_ys.map (fun i => periods.getD i 0)
  let powers := (List.range Nt).map (fun t => (modulus.getD (ridge_ys.getD t 0) []).getD t 0)
  let phases := (List.range Nt).map (fun t =>
    lib.np_angle ((wlet.getD (ridge_ys.getD t 0) []).getD t (0, 0)))
  let amplitudes := lib.power_to_amplitude ridge_periods powers sigma dt
  (phases, ridge_periods, powers, amplitudes)

/-- The spectral stage applied to an already preprocessed signal: the part
of the pixel pipeline after the two optional preprocessing branches.  Used
to state what `pixelResult` feeds into the spectral transform. -/
def pixelFrom (lib : SpectralLib) (periods : List ℚ) (dt : ℚ) (signal : List ℚ) :
    List ℚ × List ℚ × List ℚ × List ℚ :=
  let sigma := lib.np_std signal
  let Nt := signal.length
  let mw := lib.compute_spectrum signal dt periods
  let modulus := mw.1
  let wlet := mw.2
  let ridge_ys := lib.get_maxRidge_ys modulus
  let ridge_periods := ridge_ys.map (fun i => periods.getD i 0)
  let powers := (List.range Nt).map (fun t => (modulus.getD (ridge_ys.getD t 0) []).getD t 0)
  let phases := (List.range Nt).map (fun t =>
    lib.np_angle ((wlet.getD (ridge_ys.getD t 0) []).getD t (0, 0)))
  let amplitudes := lib.power_to_amplitude ridge_periods powers sigma dt
  (phases, ridge_periods, powers, amplitudes)

/-! ### The pixel-grid orchestrator (`transform_stack`) -/

/-- `out[:, y, x] = vals`: write a time column into a movie. -/
def setColumn : Mov → ℕ → ℕ → List ℚ → Mov
  | [], _, _, _ => []
  | frame :: rest, y, x, vals =>
    frame.set y ((frame.getD y []).set x (vals.headD 0)) :: setColumn rest y x vals.tail

/-- Write a column into an output array (dtype is untouched by element
assignment). -/
def writeColumn (om : OutMovie) (y x : ℕ) (vals : List ℚ) : OutMovie :=
  { om with data := setColumn om.data y x vals }

/-- `np.zeros(movie.shape, dtype=np.float32)`. -/
def zeros32 (m : Mov) : OutMovie :=
  { dtype := DType.float32, data := zerosMovie m.length (dim1 m) (dim2 m) }

/-- The iteration order of the nested pixel loop
(`for x in range(xdim): for y in range(ydim)`), as a list of `(x, y)`
pairs. -/
def pixelList (xdim ydim : ℕ) : List (ℕ × ℕ) :=
  (List.range xdim).flatMap (fun x => (List.range ydim).map (fun y => (x, y)))

/-- One iteration of the pixel loop: read `movie[:, y, x]`, run the pixel
pipeline, write the four result columns. -/
def pixelStep (lib : SpectralLib) (periods : List ℚ) (dt : ℚ) (T_c L : Option ℚ)
    (movie : Mov) (st : Out4) (p : ℕ × ℕ) : Out4 :=
  let input_vec := pixelSeries movie p.2 p.1
  let r := pixelResult lib periods dt T_c L input_vec
  { phase := writeColumn st.phase p.2 p.1 r.1
    period := writeColumn st.period p.2 p.1 r.2.1
    power := writeColumn st.power p.2 p.1 r.2.2.1
    amplitude := writeColumn st.amplitude p.2 p.1 r.2.2.2 }

/-- The body of `transform_stack` after the period grid is built: allocate
the four float32 output arrays and run the pixel loop. -/
def transformCore (lib : SpectralLib) (movie : Mov) (dt : ℚ) (periods : List ℚ)
    (T_c L : Option ℚ) : Out4 :=
  let ydim := dim1 movie
  let xdim := dim2 movie
  let init : Out4 :=
    { phase := zeros32 movie, period := zeros32 movie
      power := zeros32 movie, amplitude := zeros32 movie }
  (pixelList xdim ydim).foldl (pixelStep lib periods dt T_c L movie) init

/-- `np.linspace(start, stop, num)` over `ℚ` (endpoint included; `num = 1`
yields `[start]`, `num = 0` yields `[]`). -/
def linspace (start stop : ℚ) (num : ℕ) : List ℚ :=
  (List.range num).map (fun i : ℕ =>
    if num ≤ 1 then start else start + (i : ℚ) * ((stop - start) / ((num : ℚ) - 1)))

def linspaceErrMsg : String := "ValueError: Number of samples must be non-negative"

/-- `np.linspace` with a Python `int` sample count: a negative count raises
`ValueError`, any non-negative count succeeds. -/
def linspaceE (start stop : ℚ) (num : ℤ) : Except String (List ℚ) :=
  if num < 0 then Except.error linspaceErrMsg
  else Except.ok (linspace start stop num.toNat)

/-- `transform_stack(movie, dt, Tmin, Tmax, nT, T_c, L)` (processing.py
lines 85-180): build the period grid once, then run the pixel loop.  The
only failure of the function itself comes from `np.linspace` on a negative
`nT`; there is no parameter validation. -/
def transform_stack (lib : SpectralLib) (movie : Mov) (dt Tmin Tmax : ℚ)
    (nT : ℤ) (T_c L : Option ℚ) : Except String Out4 :=
  match linspaceE Tmin Tmax nT with
  | Except.error e => Except.error e
  | Except.ok periods => Except.ok (transformCore lib movie dt periods T_c L)

/-! ### The parallel decomposition manager (`run_parallel`) -/

/-- The chunk sizes produced by `np.array_split(a, n)` on a first-axis
extent of `H`: the first `H % n` chunks get `H / n + 1` rows, the rest get
`H / n`. -/
def splitSizes (H n : ℕ) : List ℕ :=
  (List.range n).map (fun i => if i < H % n then H / n + 1 else H / n)

/-- Split a movie along axis 1 (rows) into consecutive chunks of the given
sizes. -/
def movieSplitAux : Mov → List ℕ → List Mov
  | _, [] => []
  | movie, s :: ss =>
    movie.map (fun frame => frame.take s) ::
      movieSplitAux (movie.map (fun frame => frame.drop s)) ss

/-- `np.array_split(movie, n_cpu, axis=1)`. -/
def array_split (movie : Mov) (n : ℕ) : List Mov :=
  movieSplitAux movie (splitSizes (dim1 movie) n)

/-- `np.concatenate(ms, axis=1)` on a list of movies with equal frame
counts. -/
def concatAxis1 : List Mov → Mov
  | [] => []
  | [m] => m
  | m :: m2 :: ms => List.zipWith (fun a b => a ++ b) m (concatAxis1 (m2 :: ms))

/-- numpy dtype promotion for concatenation: equal dtypes are kept,
mixing promotes to float64. -/
def promote (a b : DType) : DType := if a = b then a else DType.float64

/-- Result dtype of `np.concatenate`. -/
def resultDtype : List DType → DType
  | [] => DType.float64
  | d :: ds => ds.foldl promote d

/-- `np.concatenate(ms, axis=1)` on output arrays, tracking the dtype. -/
def concatOut (ms : List OutMovie) : OutMovie :=
  { dtype := resultDtype (ms.map (fun m => m.dtype))
    data := concatAxis1 (ms.map (fun m => m.data)) }

/-- `pool.starmap(transform_stack, ...)`: run every worker; a raised
exception in any worker propagates. -/
def starmapE {α : Type u} {β : Type v} (f : α → Except String β) :
    List α → Except String (List β)
  | [] => Except.ok []
  | a :: as =>
    match f a with
    | Except.error e => Except.error e
    | Except.ok b =>
      match starmapE f as with
      | Except.error e => Except.error e
      | Except.ok bs => Except.ok (b :: bs)

/-- The warning branch of `run_parallel` (processing.py line 226) formats
an f-string that references `ncpu_req`, a name that is not defined in the
function, so the over-request path raises `NameError` instead of warning
and clamping. -/
def nameErrorMsg : String := "NameError: name ncpu_req is not defined"

/-- `mp.Pool(0)` raises `ValueError`. -/
def poolErrorMsg : String := "ValueError: Number of processes must be at least 1"

/-- `run_parallel(movie, n_cpu, dt, Tmin, Tmax, nT, T_c, L)` (processing.py
lines 184-252).  `ncpu_avail` models the `mp.cpu_count()` environment read.
If `n_cpu > ncpu_avail` the code evaluates the warning f-string whose
`ncpu_req` is undefined and dies with `NameError`; otherwise it splits the
movie row-wise into `n_cpu` chunks, transforms every chunk, and
concatenates the four result kinds along the row axis. -/
def run_parallel (lib : SpectralLib) (ncpu_avail : ℕ) (movie : Mov)
    (n_cpu : ℕ) (dt Tmin Tmax : ℚ) (nT : ℤ) (T_c L : Option ℚ) :
    Except String Out4 :=
  if ncpu_avail < n_cpu then Except.error nameErrorMsg
  else if n_cpu = 0 then Except.error poolErrorMsg
  else
    match starmapE (fun m => transform_stack lib m dt Tmin Tmax nT T_c L)
        (array_split movie n_cpu) with
    | Except.error e => Except.error e
    | Except.ok res_movies =>
      Except.ok
        { phase := concatOut (res_movies.map (fun r => r.phase))
          period := concatOut (res_movies.map (fun r => r.period))
          power := concatOut (res_movies.map (fun r => r.power))
          amplitude := concatOut (res_movies.map (fun r => r.amplitude)) }

/-! ### The downsampling wrapper (`down_sample`) -/

def upscaleMsg : String := "Upscaling is not supported!"

/-- `movie[0, ...]` on a movie with no frames raises `IndexError`. -/
def indexErrorMsg : String := "IndexError: index 0 is out of bounds for axis 0 with size 0"

/-- `down_sample(movie, scale_factor)` (processing.py lines 23-55), with
the external `skimage.transform.rescale` call abstracted as `rescale`.
The wrapper validates `scale_factor > 1` before touching any frame; on the
non-error path it rescales the first frame `movie[0, ...]` to inquire the
output shape (an `IndexError` when the movie has no frames), preallocates
`np.zeros((N, *frame1.shape))`, and the loop overwrites every frame, so
the payload is frame 0's probe result followed by the rescale of every
further frame. -/
def down_sample (rescale : ℚ → List (List ℚ) → List (List ℚ)) (movie : Mov)
    (scale_factor : ℚ) : Except String Mov :=
  if 1 < scale_factor then Except.error upscaleMsg
  else
    match movie with
    | [] => Except.error indexErrorMsg
    | frame0 :: rest =>
      let frame1 := rescale scale_factor frame0
      Except.ok (frame1 :: rest.map (fun frame => rescale scale_factor frame))

/-! ### Concrete instances used by the witnesses -/

/-- A concrete, fully computable stand-in for the external spectral
library, used only to instantiate the universally quantified theorems at
evaluable inputs. -/
def trivLib : SpectralLib where
  sinc_smooth := fun v _ _ => v.map (fun _ => 0)
  normalize_with_envelope := fun v _ _ => v
  compute_spectrum := fun s _ p =>
    (p.map (fun _ => s), p.map (fun _ => s.map (fun q => (q, q))))
  get_maxRidge_ys := fun M => (M.headD []).map (fun _ => 0)
  power_to_amplitude := fun rp _ _ _ => rp
  np_std := fun _ => 0
  np_angle := fun z => z.1

/-- A concrete 1-frame, 2-row, 2-column movie. -/
def demoMovie : Mov := [[[1, 2], [3, 4]]]

/-- A concrete 1-frame, 1-row, 1-column movie. -/
def tinyMovie : Mov := [[[1]]]

/-! ### Shape lemmas -/

theorem hasShapeFrameLen {m : Mov} {N H W t : ℕ} (hs : HasShape m N H W)
    (ht : t < N) : (m.getD t []).length = H :=
  (hs.2 _ (getDMemOf m t [] (by rw [hs.1]; exact ht))).1

theorem hasShapeRowLen {m : Mov} {N H W t y : ℕ} (hs : HasShape m N H W)
    (ht : t < N) (hy : y < H) : ((m.getD t []).getD y []).length = W := by
  have hf := hs.2 _ (getDMemOf m t [] (by rw [hs.1]; exact ht))
  exact hf.2 _ (getDMemOf _ y [] (by rw [hf.1]; exact hy))

theorem dim1Eq {m : Mov} {N H W : ℕ} (hs : HasShape m N H W) (hN : 1 ≤ N) :
    dim1 m = H := by
  rw [dim1, headDGetD]
  exact hasShapeFrameLen hs (by omega)

theorem dim2Eq {m : Mov} {N H W : ℕ} (hs : HasShape m N H W) (hN : 1 ≤ N)
    (hH : 1 ≤ H) : dim2 m = W := by
  rw [dim2, headDGetD, headDGetD]
  exact hasShapeRowLen hs (by omega) (by omega)

theorem zerosShape (N H W : ℕ) : HasShape (zerosMovie N H W) N H W := by
  refine ⟨List.length_replicate _ _, fun frame hf => ?_⟩
  rw [List.eq_of_mem_replicate hf]
  refine ⟨List.length_replicate _ _, fun row hr => ?_⟩
  rw [List.eq_of_mem_replicate hr]
  exact List.length_replicate _ _

theorem zerosShapeRowless (N d W : ℕ) : HasShape (zerosMovie N 0 d) N 0 W := by
  refine ⟨List.length_replicate _ _, fun frame hf => ?_⟩
  rw [List.eq_of_mem_replicate hf]
  exact ⟨rfl, fun row hr => absurd hr (by simp)⟩

theorem zerosLikeShape {m : Mov} {N H W : ℕ} (hs : HasShape m N H W) :
    HasShape (zerosMovie m.length (dim1 m) (dim2 m)) N H W := by
  rw [hs.1]
  rcases Nat.eq_zero_or_pos N with hN | hN
  · subst hN
    have hm : m = [] := List.length_eq_zero.mp hs.1
    subst hm
    simpa [zerosMovie] using ⟨rfl, by simp⟩
  · rw [dim1Eq hs hN]
    rcases Nat.eq_zero_or_pos H with hH | hH
    · subst hH
      exact zerosShapeRowless N (dim2 m) W
    · rw [dim2Eq hs hN hH]
      exact zerosShape N H W

/-! ### Column-write lemmas -/

theorem setColumnLen (m : Mov) (y x : ℕ) (vals : List ℚ) :
    (setColumn m y x vals).length = m.length := by
  induction m generalizing vals with
  | nil => rfl
  | cons frame rest ih => simpa [setColumn] using ih vals.tail

theorem setColumnRows {m : Mov} {H W : ℕ} (y x : ℕ) (vals : List ℚ)
    (h : ∀ fr ∈ m, fr.length = H ∧ ∀ r ∈ fr, r.length = W) :
    ∀ fr ∈ setColumn m y x vals, fr.length = H ∧ ∀ r ∈ fr, r.length = W := by
  induction m generalizing vals with
  | nil => intro fr hfr; simp [setColumn] at hfr
  | cons frame rest ih =>
    intro fr hfr
    have hhead := h frame (List.mem_cons_self _ _)
    rcases List.mem_cons.mp hfr with h1 | h1
    · subst h1
      by_cases hy : y < frame.length
      · constructor
        · rw [List.length_set]; exact hhead.1
        · intro r hr
          rcases memOfMemSet hr with h2 | h2
          · exact hhead.2 r h2
          · subst h2
            rw [List.length_set]
            exact hhead.2 _ (getDMemOf frame y [] hy)
      · rw [setOfLenLe frame y _ (by omega)]
        exact hhead
    · exact ih vals.tail (fun fr2 hfr2 => h fr2 (List.mem_cons_of_mem _ hfr2)) fr h1

theorem setColumnShape {m : Mov} {N H W : ℕ} (y x : ℕ) (vals : List ℚ)
    (hs : HasShape m N H W) : HasShape (setColumn m y x vals) N H W :=
  ⟨by rw [setColumnLen, hs.1], setColumnRows y x vals hs.2⟩

theorem getEntrySetColumnSelf {m : Mov} {t y x : ℕ} (vals : List ℚ)
    (ht : t < m.length) (hy : y < (m.getD t []).length)
    (hx : x < ((m.getD t []).getD y []).length) :
    getEntry (setColumn m y x vals) t y x = vals.getD t 0 := by
  induction m generalizing t vals with
  | nil => simp at ht
  | cons frame rest ih =>
    cases t with
    | zero =>
      show ((frame.set y ((frame.getD y []).set x (vals.headD 0))).getD y []).getD x 0
          = vals.getD 0 0
      rw [getDSetEq _ _ _ _ (by simpa using hy),
          getDSetEq _ _ _ _ (by simpa using hx), headDGetD]
    | succ t2 =>
      show getEntry (setColumn rest y x vals.tail) t2 y x = vals.getD (t2 + 1) 0
      rw [ih vals.tail (by simpa using ht) (by simpa using hy) (by simpa using hx),
          tailGetD]

theorem getEntrySetColumnNe {m : Mov} {t y x y2 x2 : ℕ} (vals : List ℚ)
    (h : y ≠ y2 ∨ x ≠ x2) :
    getEntry (setColumn m y2 x2 vals) t y x = getEntry m t y x := by
  induction m generalizing t vals with
  | nil => rfl
  | cons frame rest ih =>
    cases t with
    | zero =>
      show ((frame.set y2 ((frame.getD y2 []).set x2 (vals.headD 0))).getD y []).getD x 0
          = (frame.getD y []).getD x 0
      rcases h with hyy | hxx
      · rw [getDSetNe _ _ _ _ _ (fun he => hyy he.symm)]
      · by_cases hyy : y = y2
        · subst hyy
          by_cases hlen : y < frame.length
          · rw [getDSetEq _ _ _ _ hlen, getDSetNe _ _ _ _ _ (fun he => hxx he.symm)]
          · rw [setOfLenLe frame y _ (by omega)]
        · rw [getDSetNe _ _ _ _ _ (fun he => hyy he.symm)]
    | succ t2 =>
      show getEntry (setColumn rest y2 x2 vals.tail) t2 y x = getEntry rest t2 y x
      exact ih vals.tail

/-! ### The pixel loop as a fold of column writes -/

def writeFold (vals : ℕ × ℕ → List ℚ) (ps : List (ℕ × ℕ)) (m : Mov) : Mov :=
  ps.foldl (fun acc p => setColumn acc p.2 p.1 (vals p)) m

theorem writeFoldCons (vals : ℕ × ℕ → List ℚ) (p : ℕ × ℕ) (ps : List (ℕ × ℕ))
    (m : Mov) : writeFold vals (p :: ps) m = writeFold vals ps (setColumn m p.2 p.1 (vals p)) :=
  rfl

theorem writeFoldShape {N H W : ℕ} (vals : ℕ × ℕ → List ℚ) (ps : List (ℕ × ℕ))
    {m : Mov} (hs : HasShape m N H W) : HasShape (writeFold vals ps m) N H W := by
  induction ps generalizing m with
  | nil => exact hs
  | cons p ps ih => exact ih (setColumnShape p.2 p.1 (vals p) hs)

theorem writeFoldNotMem {vals : ℕ × ℕ → List ℚ} {ps : List (ℕ × ℕ)}
    {m : Mov} {t y x : ℕ} (h : (x, y) ∉ ps) :
    getEntry (writeFold vals ps m) t y x = getEntry m t y x := by
  induction ps generalizing m with
  | nil => rfl
  | cons p ps ih =>
    rw [writeFoldCons, ih (fun hmem => h (List.mem_cons_of_mem p hmem))]
    refine getEntrySetColumnNe _ ?_
    have hne : (x, y) ≠ p := fun he => h (he ▸ List.mem_cons_self p ps)
    by_cases hyy : y = p.2
    · right
      intro hxx
      exact hne (by rw [hxx, hyy])
    · exact Or.inl hyy

theorem writeFoldMem {N H W : ℕ} {vals : ℕ × ℕ → List ℚ} {ps : List (ℕ × ℕ)}
    {m : Mov} {t y x : ℕ} (hd : ps.Nodup) (hmem : (x, y) ∈ ps)
    (hs : HasShape m N H W) (ht : t < N) (hy : y < H) (hx : x < W) :
    getEntry (writeFold vals ps m) t y x = (vals (x, y)).getD t 0 := by
  induction ps generalizing m with
  | nil => simp at hmem
  | cons p ps ih =>
    have hd2 := List.nodup_cons.mp hd
    rcases List.mem_cons.mp hmem with h1 | h1
    · subst h1
      rw [writeFoldCons, writeFoldNotMem hd2.1]
      exact getEntrySetColumnSelf _ (by rw [hs.1]; exact ht)
        (by rw [hasShapeFrameLen hs ht]; exact hy)
        (by rw [hasShapeRowLen hs ht hy]; exact hx)
    · exact ih hd2.2 h1 (setColumnShape p.2 p.1 (vals p) hs)

theorem pixelListMemIff (X Y a b : ℕ) : (a, b) ∈ pixelList X Y ↔ a < X ∧ b < Y := by
  simp [pixelList]

theorem pixelListFirstLt {X Y : ℕ} {p : ℕ × ℕ} (h : p ∈ pixelList X Y) : p.1 < X := by
  rcases p with ⟨a, b⟩
  exact ((pixelListMemIff X Y a b).mp h).1

theorem pixelListNodup (X Y : ℕ) : (pixelList X Y).Nodup := by
  induction X with
  | zero => simp [pixelList]
  | succ X2 ih =>
    have hsplit : pixelList (X2 + 1) Y
        = pixelList X2 Y ++ (List.range Y).map (fun y => (X2, y)) := by
      rw [pixelList, List.range_succ]
      simp [pixelList]
    rw [hsplit, List.nodup_append]
    refine ⟨ih, (List.nodup_range Y).map (fun a b hab => by simpa using hab), ?_⟩
    intro p hp hp2
    have h1 : p.1 < X2 := pixelListFirstLt hp
    rcases List.mem_map.mp hp2 with ⟨y, _, hyp⟩
    rw [← hyp] at h1
    simp at h1

/-- The phase column produced for pixel `p = (x, y)`. -/
def phaseVals (lib : SpectralLib) (periods : List ℚ) (dt : ℚ) (T_c L : Option ℚ)
    (movie : Mov) (p : ℕ × ℕ) : List ℚ :=
  (pixelResult lib periods dt T_c L (pixelSeries movie p.2 p.1)).1

/-- The ridge-period column produced for pixel `p = (x, y)`. -/
def periodVals (lib : SpectralLib) (periods : List ℚ) (dt : ℚ) (T_c L : Option ℚ)
    (movie : Mov) (p : ℕ × ℕ) : List ℚ :=
  (pixelResult lib periods dt T_c L (pixelSeries movie p.2 p.1)).2.1

/-- The power column produced for pixel `p = (x, y)`. -/
def powerVals (lib : SpectralLib) (periods : List ℚ) (dt : ℚ) (T_c L : Option ℚ)
    (movie : Mov) (p : ℕ × ℕ) : List ℚ :=
  (pixelResult lib periods dt T_c L (pixelSeries movie p.2 p.1)).2.2.1

/-- The amplitude column produced for pixel `p = (x, y)`. -/
def ampVals (lib : SpectralLib) (periods : List ℚ) (dt : ℚ) (T_c L : Option ℚ)
    (movie : Mov) (p : ℕ × ℕ) : List ℚ :=
  (pixelResult lib periods dt T_c L (pixelSeries movie p.2 p.1)).2.2.2

theorem foldPixelProj (lib : SpectralLib) (periods : List ℚ) (dt : ℚ)
    (T_c L : Option ℚ) (movie : Mov) :
    ∀ (ps : List (ℕ × ℕ)) (st : Out4),
    ps.foldl (pixelStep lib periods dt T_c L movie) st =
      { phase := ⟨st.phase.dtype,
          writeFold (phaseVals lib periods dt T_c L movie) ps st.phase.data⟩
        period := ⟨st.period.dtype,
          writeFold (periodVals lib periods dt T_c L movie) ps st.period.data⟩
        power := ⟨st.power.dtype,
          writeFold (powerVals lib periods dt T_c L movie) ps st.power.data⟩
        amplitude := ⟨st.amplitude.dtype,
          writeFold (ampVals lib periods dt T_c L movie) ps st.amplitude.data⟩ } := by
  intro ps
  induction ps with
  | nil => intro st; rfl
  | cons p ps ih =>
    intro st
    rw [List.foldl_cons, ih]
    rfl

theorem transformCoreProj (lib : SpectralLib) (movie : Mov) (dt : ℚ)
    (periods : List ℚ) (T_c L : Option ℚ) :
    transformCore lib movie dt periods T_c L =
      { phase := ⟨DType.float32,
          writeFold (phaseVals lib periods dt T_c L movie)
            (pixelList (dim2 movie) (dim1 movie))
            (zerosMovie movie.length (dim1 movie) (dim2 movie))⟩
        period := ⟨DType.float32,
          writeFold (periodVals lib periods dt T_c L movie)
            (pixelList (dim2 movie) (dim1 movie))
            (zerosMovie movie.length (dim1 movie) (dim2 movie))⟩
        power := ⟨DType.float32,
          writeFold (powerVals lib periods dt T_c L movie)
            (pixelList (dim2 movie) (dim1 movie))
            (zerosMovie movie.length (dim1 movie) (dim2 movie))⟩
        amplitude := ⟨DType.float32,
          writeFold (ampVals lib periods dt T_c L movie)
            (pixelList (dim2 movie) (dim1 movie))
            (zerosMovie movie.length (dim1 movie) (dim2 movie))⟩ } := by
  exact foldPixelProj lib periods dt T_c L movie (pixelList (dim2 movie) (dim1 movie)) _

theorem transformCoreEntry {lib : SpectralLib} {periods : List ℚ} {dt : ℚ}
    {T_c L : Option ℚ} {movie : Mov} {N H W t y x : ℕ}
    (hs : HasShape movie N H W) (ht : t < N) (hy : y < H) (hx : x < W) :
    getEntry (transformCore lib movie dt periods T_c L).phase.data t y x
        = (pixelResult lib periods dt T_c L (pixelSeries movie y x)).1.getD t 0
    ∧ getEntry (transformCore lib movie dt periods T_c L).period.data t y x
        = (pixelResult lib periods dt T_c L (pixelSeries movie y x)).2.1.getD t 0
    ∧ getEntry (transformCore lib movie dt periods T_c L).power.data t y x
        = (pixelResult lib periods dt T_c L (pixelSeries movie y x)).2.2.1.getD t 0
    ∧ getEntry (transformCore lib movie dt periods T_c L).amplitude.data t y x
        = (pixelResult lib periods dt T_c L (pixelSeries movie y x)).2.2.2.getD t 0 := by
  have hN : 1 ≤ N := by omega
  have hH : 1 ≤ H := by omega
  have hd1 : dim1 movie = H := dim1Eq hs hN
  have hd2 : dim2 movie = W := dim2Eq hs hN hH
  have hz : HasShape (zerosMovie movie.length (dim1 movie) (dim2 movie)) N H W :=
    zerosLikeShape hs
  have hmem : (x, y) ∈ pixelList (dim2 movie) (dim1 movie) := by
    rw [hd1, hd2]
    exact (pixelListMemIff W H x y).mpr ⟨hx, hy⟩
  have hnd := pixelListNodup (dim2 movie) (dim1 movie)
  rw [transformCoreProj]
  exact ⟨writeFoldMem hnd hmem hz ht hy hx, writeFoldMem hnd hmem hz ht hy hx,
    writeFoldMem hnd hmem hz ht hy hx, writeFoldMem hnd hmem hz ht hy hx⟩

theorem transformCoreShape {lib : SpectralLib} {periods : List ℚ} {dt : ℚ}
    {T_c L : Option ℚ} {movie : Mov} {N H W : ℕ} (hs : HasShape movie N H W) :
    HasShape (transformCore lib movie dt periods T_c L).phase.data N H W
    ∧ HasShape (transformCore lib movie dt periods T_c L).period.data N H W
    ∧ HasShape (transformCore lib movie dt periods T_c L).power.data N H W
    ∧ HasShape (transformCore lib movie dt periods T_c L).amplitude.data N H W := by
  rw [transformCoreProj]
  exact ⟨writeFoldShape _ _ (zerosLikeShape hs), writeFoldShape _ _ (zerosLikeShape hs),
    writeFoldShape _ _ (zerosLikeShape hs), writeFoldShape _ _ (zerosLikeShape hs)⟩

theorem transformCoreDtype (lib : SpectralLib) (movie : Mov) (dt : ℚ)
    (periods : List ℚ) (T_c L : Option ℚ) :
    (transformCore lib movie dt periods T_c L).phase.dtype = DType.float32
    ∧ (transformCore lib movie dt periods T_c L).period.dtype = DType.float32
    ∧ (transformCore lib movie dt periods T_c L).power.dtype = DType.float32
    ∧ (transformCore lib movie dt periods T_c L).amplitude.dtype = DType.float32 := by
  rw [transformCoreProj]
  exact ⟨rfl, rfl, rfl, rfl⟩

/-! ### Row-axis split and concatenation -/

theorem takeShape {m : Mov} {N H W : ℕ} (hs : HasShape m N H W) (s : ℕ)
    (h : s ≤ H) : HasShape (m.map (fun frame => frame.take s)) N s W := by
  refine ⟨by rw [List.length_map, hs.1], fun frame hf => ?_⟩
  rcases List.mem_map.mp hf with ⟨fr0, hfr0, hfr⟩
  subst hfr
  have h0 := hs.2 fr0 hfr0
  exact ⟨by rw [List.length_take, h0.1]; omega,
    fun r hr => h0.2 r (memOfMemTake hr)⟩

theorem dropShape {m : Mov} {N H W : ℕ} (hs : HasShape m N H W) (s : ℕ) :
    HasShape (m.map (fun frame => frame.drop s)) N (H - s) W := by
  refine ⟨by rw [List.length_map, hs.1], fun frame hf => ?_⟩
  rcases List.mem_map.mp hf with ⟨fr0, hfr0, hfr⟩
  subst hfr
  have h0 := hs.2 fr0 hfr0
  exact ⟨by rw [List.length_drop, h0.1], fun r hr => h0.2 r (memOfMemDrop hr)⟩

theorem seriesTake (m : Mov) (s y x : ℕ) (h : y < s) :
    pixelSeries (m.map (fun frame => frame.take s)) y x = pixelSeries m y x := by
  rw [pixelSeries, pixelSeries, List.map_map]
  exact mapCongrMem m (fun fr _ => by
    simp only [Function.comp_apply]
    rw [getDTakeLt _ _ _ _ h])

theorem seriesDrop (m : Mov) (s y x : ℕ) :
    pixelSeries (m.map (fun frame => frame.drop s)) y x = pixelSeries m (s + y) x := by
  rw [pixelSeries, pixelSeries, List.map_map]
  exact mapCongrMem m (fun fr _ => by
    simp only [Function.comp_apply]
    rw [getDDrop])

theorem zipAppendFrames {H1 H2 W : ℕ} :
    ∀ (A B : Mov),
    (∀ fa ∈ A, fa.length = H1 ∧ ∀ r ∈ fa, r.length = W) →
    (∀ fb ∈ B, fb.length = H2 ∧ ∀ r ∈ fb, r.length = W) →
    ∀ fr ∈ List.zipWith (fun a b => a ++ b) A B,
      fr.length = H1 + H2 ∧ ∀ r ∈ fr, r.length = W := by
  intro A
  induction A with
  | nil => intro B _ _ fr hfr; simp at hfr
  | cons a A2 ih =>
    intro B hA hB fr hfr
    cases B with
    | nil => simp at hfr
    | cons b B2 =>
      rcases List.mem_cons.mp hfr with h1 | h1
      · subst h1
        have ha := hA a (List.mem_cons_self _ _)
        have hb := hB b (List.mem_cons_self _ _)
        refine ⟨by rw [List.length_append, ha.1, hb.1], fun r hr => ?_⟩
        rcases List.mem_append.mp hr with h2 | h2
        · exact ha.2 r h2
        · exact hb.2 r h2
      · exact ih B2 (fun fa hfa => hA fa (List.mem_cons_of_mem _ hfa))
          (fun fb hfb => hB fb (List.mem_cons_of_mem _ hfb)) fr h1

theorem zipAppendShape {A B : Mov} {N H1 H2 W : ℕ}
    (hA : HasShape A N H1 W) (hB : HasShape B N H2 W) :
    HasShape (List.zipWith (fun a b => a ++ b) A B) N (H1 + H2) W :=
  ⟨by rw [List.length_zipWith, hA.1, hB.1, Nat.min_self],
    zipAppendFrames A B hA.2 hB.2⟩

theorem concatSplitShape (F : Mov → Mov)
    (hF : ∀ (m : Mov) (N h W : ℕ), HasShape m N h W → HasShape (F m) N h W) :
    ∀ (ss : List ℕ) (movie : Mov) (N W : ℕ),
    HasShape movie N ss.sum W → ss ≠ [] →
    HasShape (concatAxis1 ((movieSplitAux movie ss).map F)) N ss.sum W := by
  intro ss
  induction ss with
  | nil => intro movie N W _ hne; exact absurd rfl hne
  | cons s ss ih =>
    intro movie N W hs _
    cases ss with
    | nil =>
      show HasShape (F (movie.map (fun frame => frame.take s))) N (s :: List.nil).sum W
      have hsum : (s :: List.nil).sum = s := by simp
      rw [hsum] at hs ⊢
      exact hF _ _ _ _ (takeShape hs s (le_refl s))
    | cons s2 ss2 =>
      have key : concatAxis1 ((movieSplitAux movie (s :: s2 :: ss2)).map F)
          = List.zipWith (fun a b => a ++ b)
              (F (movie.map (fun frame => frame.take s)))
              (concatAxis1 ((movieSplitAux
                (movie.map (fun frame => frame.drop s)) (s2 :: ss2)).map F)) := rfl
      rw [key]
      have hsum : (s :: s2 :: ss2).sum = s + (s2 :: ss2).sum := by simp
      rw [hsum] at hs ⊢
      have h1 : HasShape (F (movie.map (fun frame => frame.take s))) N s W :=
        hF _ _ _ _ (takeShape hs s (by omega))
      have h2 : HasShape (movie.map (fun frame => frame.drop s)) N ((s2 :: ss2).sum) W := by
        have := dropShape hs s
        simpa using this
      exact zipAppendShape h1 (ih _ N W h2 (by simp))

theorem concatMovieSplit :
    ∀ (ss : List ℕ) (movie : Mov),
    (∀ frame ∈ movie, frame.length = ss.sum) → ss ≠ [] →
    concatAxis1 (movieSplitAux movie ss) = movie := by
  intro ss
  induction ss with
  | nil => intro movie _ hne; exact absurd rfl hne
  | cons s ss ih =>
    intro movie hlen _
    cases ss with
    | nil =>
      show movie.map (fun frame => frame.take s) = movie
      exact mapEqSelf movie (fun fr hfr =>
        takeOfLenLe fr s (by rw [hlen fr hfr]; simp)
      )
    | cons s2 ss2 =>
      have key : concatAxis1 (movieSplitAux movie (s :: s2 :: ss2))
          = List.zipWith (fun a b => a ++ b)
              (movie.map (fun frame => frame.take s))
              (concatAxis1 (movieSplitAux
                (movie.map (fun frame => frame.drop s)) (s2 :: ss2))) := rfl
      rw [key, ih (movie.map (fun frame => frame.drop s))
        (fun fr hfr => by
          rcases List.mem_map.mp hfr with ⟨fr0, hfr0, hfr2⟩
          subst hfr2
          rw [List.length_drop, hlen fr0 hfr0]
          simp)
        (by simp)]
      rw [zipWithMapSame]
      exact mapEqSelf movie (fun fr _ => List.take_append_drop s fr)

theorem concatSplitEntry (F : Mov → Mov) (pix : List ℚ → ℕ → ℚ)
    (hF : ∀ (m : Mov) (N h W : ℕ), HasShape m N h W → HasShape (F m) N h W)
    (hE : ∀ (m : Mov) (N h W : ℕ), HasShape m N h W →
      ∀ t y x, t < N → y < h → x < W →
      getEntry (F m) t y x = pix (pixelSeries m y x) t) :
    ∀ (ss : List ℕ) (movie : Mov) (N W : ℕ),
    HasShape movie N ss.sum W → ss ≠ [] →
    ∀ t y x, t < N → y < ss.sum → x < W →
    getEntry (concatAxis1 ((movieSplitAux movie ss).map F)) t y x
      = pix (pixelSeries movie y x) t := by
  intro ss
  induction ss with
  | nil => intro movie N W _ hne; exact absurd rfl hne
  | cons s ss ih =>
    intro movie N W hs _ t y x ht hy hx
    cases ss with
    | nil =>
      have hsum : (s :: List.nil).sum = s := by simp
      rw [hsum] at hs hy
      show getEntry (F (movie.map (fun frame => frame.take s))) t y x
          = pix (pixelSeries movie y x) t
      rw [hE _ N s W (takeShape hs s (le_refl s)) t y x ht hy hx,
        seriesTake movie s y x hy]
    | cons s2 ss2 =>
      have key : concatAxis1 ((movieSplitAux movie (s :: s2 :: ss2)).map F)
          = List.zipWith (fun a b => a ++ b)
              (F (movie.map (fun frame => frame.take s)))
              (concatAxis1 ((movieSplitAux
                (movie.map (fun frame => frame.drop s)) (s2 :: ss2)).map F)) := rfl
      have hsum : (s :: s2 :: ss2).sum = s + (s2 :: ss2).sum := by simp
      rw [hsum] at hs hy
      have h1 : HasShape (F (movie.map (fun frame => frame.take s))) N s W :=
        hF _ _ _ _ (takeShape hs s (by omega))
      have hdropS : HasShape (movie.map (fun frame => frame.drop s)) N ((s2 :: ss2).sum) W := by
        have := dropShape hs s
        simpa using this
      have h2 : HasShape (concatAxis1 ((movieSplitAux
          (movie.map (fun frame => frame.drop s)) (s2 :: ss2)).map F)) N ((s2 :: ss2).sum) W :=
        concatSplitShape F hF _ _ N W hdropS (by simp)
      rw [key]
      simp only [getEntry]
      rw [getDZipWith (fun a b => a ++ b) _ _ t [] [] []
        (by rw [h1.1]; exact ht) (by rw [h2.1]; exact ht)]
      by_cases hys : y < s
      · rw [getDAppendLt _ _ y [] (by rw [hasShapeFrameLen h1 ht]; exact hys)]
        have := hE _ N s W (takeShape hs s (by omega)) t y x ht hys hx
        rw [getEntry] at this
        rw [this, seriesTake movie s y x hys]
      · rw [getDAppendGe _ _ y [] (by rw [hasShapeFrameLen h1 ht]; omega)]
        rw [hasShapeFrameLen h1 ht]
        have hrec := ih (movie.map (fun frame => frame.drop s)) N W hdropS (by simp)
          t (y - s) x ht (by omega) hx
        rw [getEntry] at hrec
        rw [hrec, seriesDrop movie s (y - s) x]
        have hys2 : s + (y - s) = y := by omega
        rw [hys2]

/-! ### `np.array_split` chunk sizes -/

theorem sumIteRange (r l : ℕ) :
    ∀ k, ((List.range k).map (fun i => if i < r then l + 1 else l)).sum
      = min k r * (l + 1) + (k - min k r) * l := by
  intro k
  induction k with
  | zero => simp
  | succ k ih =>
    rw [List.range_succ, List.map_append, List.sum_append]
    simp only [List.map_cons, List.map_nil, List.sum_cons, List.sum_nil]
    rw [ih]
    by_cases hk : k < r
    · rw [if_pos hk]
      have h1 : min k r = k := by omega
      have h2 : min (k + 1) r = k + 1 := by omega
      rw [h1, h2]
      simp [Nat.sub_self]
      ring
    · rw [if_neg hk]
      have h1 : min k r = r := by omega
      have h2 : min (k + 1) r = r := by omega
      rw [h1, h2]
      have h3 : k + 1 - r = (k - r) + 1 := by omega
      rw [h3]
      ring

theorem sumSplitSizes (H n : ℕ) (hn : 1 ≤ n) : (splitSizes H n).sum = H := by
  rw [splitSizes, sumIteRange]
  have hr : H % n < n := Nat.mod_lt H (by omega)
  have h1 : min n (H % n) = H % n := by omega
  rw [h1]
  have hdm := Nat.div_add_mod H n
  have h4 : (n - H % n) * (H / n) = n * (H / n) - H % n * (H / n) :=
    Nat.sub_mul n (H % n) (H / n)
  have h5 : H % n * (H / n) ≤ n * (H / n) := Nat.mul_le_mul_right (H / n) (by omega)
  have h6 : H % n * (H / n + 1) = H % n * (H / n) + H % n := Nat.mul_succ (H % n) (H / n)
  omega

theorem splitSizesLen (H n : ℕ) : (splitSizes H n).length = n := by
  simp [splitSizes]

theorem splitSizesMem {H n a : ℕ} (h : a ∈ splitSizes H n) :
    a = H / n ∨ a = H / n + 1 := by
  rcases List.mem_map.mp h with ⟨i, _, hi⟩
  by_cases hir : i < H % n
  · right; rw [← hi, if_pos hir]
  · left; rw [← hi, if_neg hir]

theorem splitSizesPos {H n : ℕ} (hn : 1 ≤ n) (hnH : n ≤ H) :
    ∀ a ∈ splitSizes H n, 1 ≤ a := by
  intro a ha
  have hq : 1 ≤ H / n := (Nat.one_le_div_iff (by omega)).mpr hnH
  rcases splitSizesMem ha with h | h <;> omega

theorem movieSplitAuxLen : ∀ (ss : List ℕ) (m : Mov),
    (movieSplitAux m ss).length = ss.length := by
  intro ss
  induction ss with
  | nil => intro m; rfl
  | cons s ss ih => intro m; simpa [movieSplitAux] using ih _

theorem chunksDim1 : ∀ (ss : List ℕ) (movie : Mov) (N W : ℕ), 1 ≤ N →
    HasShape movie N ss.sum W →
    (movieSplitAux movie ss).map dim1 = ss := by
  intro ss
  induction ss with
  | nil => intro movie N W _ _; rfl
  | cons s ss ih =>
    intro movie N W hN hs
    have hsum : (s :: ss).sum = s + ss.sum := by simp
    rw [hsum] at hs
    show dim1 (movie.map (fun frame => frame.take s)) :: _ = s :: ss
    have h1 : dim1 (movie.map (fun frame => frame.take s)) = s :=
      dim1Eq (takeShape hs s (by omega)) hN
    have hdropS : HasShape (movie.map (fun frame => frame.drop s)) N ss.sum W := by
      have := dropShape hs s
      simpa using this
    rw [h1, ih (movie.map (fun frame => frame.drop s)) N W hN hdropS]

/-! ### The worker dispatch and the period grid -/

theorem starmapEOk {α : Type u} {β : Type v} (f : α → Except String β) (g : α → β) :
    ∀ (l : List α), (∀ a ∈ l, f a = Except.ok (g a)) →
    starmapE f l = Except.ok (l.map g) := by
  intro l
  induction l with
  | nil => intro _; rfl
  | cons a as ih =>
    intro h
    rw [starmapE, h a (List.mem_cons_self _ _), ih (fun b hb => h b (List.mem_cons_of_mem _ hb))]
    rfl

theorem starmapEErrHead {α : Type u} {β : Type v} (f : α → Except String β)
    (a : α) (as : List α) (e : String) (h : f a = Except.error e) :
    starmapE f (a :: as) = Except.error e := by
  rw [starmapE, h]

theorem linspaceLen (a b : ℚ) (num : ℕ) : (linspace a b num).length = num := by
  rw [linspace, List.length_map, List.length_range]

theorem linspaceGetD (a b : ℚ) (num i : ℕ) (h : i < num) :
    (linspace a b num).getD i 0
      = if num ≤ 1 then a else a + (i : ℚ) * ((b - a) / ((num : ℚ) - 1)) := by
  rw [linspace,
    getDMapOf (fun i2 : ℕ => if num ≤ 1 then a else a + (i2 : ℚ) * ((b - a) / ((num : ℚ) - 1)))
      (List.range num) i 0 0 (by simpa using h),
    getDRangeOf num i 0 h]

theorem linspaceFirst (a b : ℚ) (num : ℕ) (h : 1 ≤ num) :
    (linspace a b num).getD 0 0 = a := by
  rw [linspaceGetD a b num 0 (by omega)]
  by_cases h1 : num ≤ 1
  · rw [if_pos h1]
  · rw [if_neg h1]
    push_cast
    ring

theorem linspaceLast (a b : ℚ) (num : ℕ) (h : 2 ≤ num) :
    (linspace a b num).getD (num - 1) 0 = b := by
  rw [linspaceGetD a b num (num - 1) (by omega), if_neg (by omega)]
  have h1 : (1 : ℕ) ≤ num := by omega
  have hcast : ((num - 1 : ℕ) : ℚ) = (num : ℚ) - 1 := by
    have h2 := @Nat.cast_sub ℚ _ 1 num h1
    simpa using h2
  rw [hcast]
  have hne : (num : ℚ) - 1 ≠ 0 := by
    have h2 : (2 : ℚ) ≤ (num : ℚ) := by exact_mod_cast h
    intro he
    linarith
  rw [mul_comm, div_mul_cancel₀ _ hne]
  ring

theorem linspaceMono (a b : ℚ) (num i j : ℕ) (hab : a ≤ b) (hij : i ≤ j)
    (hj : j < num) :
    (linspace a b num).getD i 0 ≤ (linspace a b num).getD j 0 := by
  rw [linspaceGetD a b num i (by omega), linspaceGetD a b num j hj]
  by_cases h1 : num ≤ 1
  · rw [if_pos h1, if_pos h1]
  · rw [if_neg h1, if_neg h1]
    have hstep : 0 ≤ (b - a) / ((num : ℚ) - 1) := by
      apply div_nonneg (by linarith)
      have h2 : (2 : ℚ) ≤ (num : ℚ) := by exact_mod_cast (by omega : 2 ≤ num)
      linarith
    have hc : (i : ℚ) ≤ (j : ℚ) := by exact_mod_cast hij
    exact add_le_add_left (mul_le_mul_of_nonneg_right hc hstep) a

theorem linspaceSingleton (a b : ℚ) : linspace a b 1 = [a] := rfl

theorem linspaceEOk (a b : ℚ) (num : ℤ) (h : 0 ≤ num) :
    linspaceE a b num = Except.ok (linspace a b num.toNat) := by
  rw [linspaceE, if_neg (by omega)]

theorem transformStackOk (lib : SpectralLib) (movie : Mov) (dt Tmin Tmax : ℚ)
    (nT : ℤ) (T_c L : Option ℚ) (h : 0 ≤ nT) :
    transform_stack lib movie dt Tmin Tmax nT T_c L
      = Except.ok (transformCore lib movie dt (linspace Tmin Tmax nT.toNat) T_c L) := by
  rw [transform_stack, linspaceEOk Tmin Tmax nT h]

theorem transformStackErr (lib : SpectralLib) (movie : Mov) (dt Tmin Tmax : ℚ)
    (nT : ℤ) (T_c L : Option ℚ) (h : nT < 0) :
    transform_stack lib movie dt Tmin Tmax nT T_c L = Except.error linspaceErrMsg := by
  have h2 : linspaceE Tmin Tmax nT = Except.error linspaceErrMsg := by
    rw [linspaceE, if_pos h]
  rw [transform_stack, h2]

theorem runParallelOk (lib : SpectralLib) (avail : ℕ) (movie : Mov) (n : ℕ)
    (dt Tmin Tmax : ℚ) (nT : ℤ) (T_c L : Option ℚ)
    (hn : 1 ≤ n) (hna : n ≤ avail) (hnT : 0 ≤ nT) :
    run_parallel lib avail movie n dt Tmin Tmax nT T_c L
      = Except.ok
        { phase := concatOut ((array_split movie n).map (fun c =>
            (transformCore lib c dt (linspace Tmin Tmax nT.toNat) T_c L).phase))
          period := concatOut ((array_split movie n).map (fun c =>
            (transformCore lib c dt (linspace Tmin Tmax nT.toNat) T_c L).period))
          power := concatOut ((array_split movie n).map (fun c =>
            (transformCore lib c dt (linspace Tmin Tmax nT.toNat) T_c L).power))
          amplitude := concatOut ((array_split movie n).map (fun c =>
            (transformCore lib c dt (linspace Tmin Tmax nT.toNat) T_c L).amplitude)) } := by
  rw [run_parallel, if_neg (by omega), if_neg (by omega)]
  rw [starmapEOk _ (fun c => transformCore lib c dt (linspace Tmin Tmax nT.toNat) T_c L) _
    (fun a _ => transformStackOk lib a dt Tmin Tmax nT T_c L hnT)]
  simp only [List.map_map]
  rfl

theorem runParallelNameError (lib : SpectralLib) (avail : ℕ) (movie : Mov)
    (n : ℕ) (dt Tmin Tmax : ℚ) (nT : ℤ) (T_c L : Option ℚ) (hlt : avail < n) :
    run_parallel lib avail movie n dt Tmin Tmax nT T_c L = Except.error nameErrorMsg := by
  rw [run_parallel, if_pos hlt]

theorem resultDtypeF32 :
    ∀ (ds : List DType), ds ≠ [] → (∀ d ∈ ds, d = DType.float32) →
    resultDtype ds = DType.float32 := by
  have aux : ∀ (t : List DType) (d : DType), d = DType.float32 →
      (∀ e ∈ t, e = DType.float32) → t.foldl promote d = DType.float32 := by
    intro t
    induction t with
    | nil => intro d hd _; exact hd
    | cons e t2 ih =>
      intro d hd hall
      have he := hall e (List.mem_cons_self _ _)
      have hp : promote d e = DType.float32 := by rw [hd, he]; rfl
      exact ih (promote d e) hp (fun e2 he2 => hall e2 (List.mem_cons_of_mem _ he2))
  intro ds hne hall
  cases ds with
  | nil => exact absurd rfl hne
  | cons d ds2 =>
    exact aux ds2 d (hall d (List.mem_cons_self _ _))
      (fun e he => hall e (List.mem_cons_of_mem _ he))

theorem splitSizesNeNil {H n : ℕ} (hn : 1 ≤ n) : splitSizes H n ≠ [] := by
  intro he
  have hl := splitSizesLen H n
  rw [he] at hl
  simp at hl
  omega

theorem concatOutShape (G : Mov → OutMovie)
    (hGs : ∀ (m : Mov) (N h W : ℕ), HasShape m N h W → HasShape (G m).data N h W)
    (hGd : ∀ m : Mov, (G m).dtype = DType.float32) :
    ∀ (ss : List ℕ) (movie : Mov) (N W : ℕ), HasShape movie N ss.sum W → ss ≠ [] →
    HasShape (concatOut ((movieSplitAux movie ss).map G)).data N ss.sum W
    ∧ (concatOut ((movieSplitAux movie ss).map G)).dtype = DType.float32 := by
  intro ss movie N W hs hne
  constructor
  · show HasShape (concatAxis1 (((movieSplitAux movie ss).map G).map (fun m => m.data)))
      N ss.sum W
    rw [List.map_map]
    exact concatSplitShape (fun c => (G c).data)
      (fun m N2 h2 W2 hsm => hGs m N2 h2 W2 hsm) ss movie N W hs hne
  · show resultDtype (((movieSplitAux movie ss).map G).map (fun m => m.dtype)) = DType.float32
    apply resultDtypeF32
    · intro he
      have hlen : (((movieSplitAux movie ss).map G).map (fun m => m.dtype)).length
          = ss.length := by
        rw [List.length_map, List.length_map, movieSplitAuxLen]
      rw [he] at hlen
      have : ss = [] := List.length_eq_zero.mp hlen.symm
      exact hne this
    · intro d hd
      rcases List.mem_map.mp hd with ⟨om, hom, hd2⟩
      rcases List.mem_map.mp hom with ⟨c, _, hc⟩
      rw [← hd2, ← hc]
      exact hGd c

theorem concatOutEntry (G : Mov → OutMovie) (pix : List ℚ → ℕ → ℚ)
    (hGs : ∀ (m : Mov) (N h W : ℕ), HasShape m N h W → HasShape (G m).data N h W)
    (hGe : ∀ (m : Mov) (N h W : ℕ), HasShape m N h W →
      ∀ t y x, t < N → y < h → x < W →
      getEntry (G m).data t y x = pix (pixelSeries m y x) t) :
    ∀ (ss : List ℕ) (movie : Mov) (N W : ℕ), HasShape movie N ss.sum W → ss ≠ [] →
    ∀ t y x, t < N → y < ss.sum → x < W →
    getEntry (concatOut ((movieSplitAux movie ss).map G)).data t y x
      = pix (pixelSeries movie y x) t := by
  intro ss movie N W hs hne t y x ht hy hx
  show getEntry (concatAxis1 (((movieSplitAux movie ss).map G).map (fun m => m.data))) t y x
      = pix (pixelSeries movie y x) t
  rw [List.map_map]
  exact concatSplitEntry (fun c => (G c).data) pix
    (fun m N2 h2 W2 hsm => hGs m N2 h2 W2 hsm)
    (fun m N2 h2 W2 hsm t2 y2 x2 ht2 hy2 hx2 => hGe m N2 h2 W2 hsm t2 y2 x2 ht2 hy2 hx2)
    ss movie N W hs hne t y x ht hy hx

/-! ### Claim theorems -/

/-- Claim C1: for every input movie of shape (N, H, W), every worker count
n with 1 ≤ n ≤ H that does not exceed the available capacity, and every
behaviour of the external spectral library, `run_parallel` and a single
`transform_stack` call both succeed and their four output movies carry the
same value at every frame and pixel. -/
theorem c1_run_parallel_matches_transform_stack
    (lib : SpectralLib) (movie : Mov) (N H W avail n : ℕ)
    (dt Tmin Tmax : ℚ) (nT : ℤ) (T_c L : Option ℚ)
    (hs : HasShape movie N H W) (hN : 1 ≤ N) (hH : 1 ≤ H)
    (hn : 1 ≤ n) (hnH : n ≤ H) (hna : n ≤ avail) (hnT : 0 ≤ nT) :
    ∃ rp rs : Out4,
      run_parallel lib avail movie n dt Tmin Tmax nT T_c L = Except.ok rp ∧
      transform_stack lib movie dt Tmin Tmax nT T_c L = Except.ok rs ∧
      ∀ t y x : ℕ, t < N → y < H → x < W →
        getEntry rp.phase.data t y x = getEntry rs.phase.data t y x ∧
        getEntry rp.period.data t y x = getEntry rs.period.data t y x ∧
        getEntry rp.power.data t y x = getEntry rs.power.data t y x ∧
        getEntry rp.amplitude.data t y x = getEntry rs.amplitude.data t y x := by
  have hd1 : dim1 movie = H := dim1Eq hs hN
  have hss : (splitSizes H n).sum = H := sumSplitSizes H n hn
  have hs2 : HasShape movie N ((splitSizes H n).sum) W := by rw [hss]; exact hs
  have hne : splitSizes H n ≠ [] := splitSizesNeNil hn
  refine ⟨_, _, runParallelOk lib avail movie n dt Tmin Tmax nT T_c L hn hna hnT,
    transformStackOk lib movie dt Tmin Tmax nT T_c L hnT, ?_⟩
  intro t y x ht hy hx
  have hy2 : y < (splitSizes H n).sum := by rw [hss]; exact hy
  have hcore := @transformCoreEntry lib (linspace Tmin Tmax nT.toNat) dt T_c L
    movie N H W t y x hs ht hy hx
  refine ⟨?_, ?_, ?_, ?_⟩
  · rw [hcore.1, array_split, hd1]
    exact concatOutEntry
      (fun c => (transformCore lib c dt (linspace Tmin Tmax nT.toNat) T_c L).phase)
      (fun v t2 => (pixelResult lib (linspace Tmin Tmax nT.toNat) dt T_c L v).1.getD t2 0)
      (fun m N2 h2 W2 hsm => (transformCoreShape hsm).1)
      (fun m N2 h2 W2 hsm t2 y2 x2 ht2 hy2 hx2 => (transformCoreEntry hsm ht2 hy2 hx2).1)
      (splitSizes H n) movie N W hs2 hne t y x ht hy2 hx
  · rw [hcore.2.1, array_split, hd1]
    exact concatOutEntry
      (fun c => (transformCore lib c dt (linspace Tmin Tmax nT.toNat) T_c L).period)
      (fun v t2 => (pixelResult lib (linspace Tmin Tmax nT.toNat) dt T_c L v).2.1.getD t2 0)
      (fun m N2 h2 W2 hsm => (transformCoreShape hsm).2.1)
      (fun m N2 h2 W2 hsm t2 y2 x2 ht2 hy2 hx2 => (transformCoreEntry hsm ht2 hy2 hx2).2.1)
      (splitSizes H n) movie N W hs2 hne t y x ht hy2 hx
  · rw [hcore.2.2.1, array_split, hd1]
    exact concatOutEntry
      (fun c => (transformCore lib c dt (linspace Tmin Tmax nT.toNat) T_c L).power)
      (fun v t2 => (pixelResult lib (linspace Tmin Tmax nT.toNat) dt T_c L v).2.2.1.getD t2 0)
      (fun m N2 h2 W2 hsm => (transformCoreShape hsm).2.2.1)
      (fun m N2 h2 W2 hsm t2 y2 x2 ht2 hy2 hx2 => (transformCoreEntry hsm ht2 hy2 hx2).2.2.1)
      (splitSizes H n) movie N W hs2 hne t y x ht hy2 hx
  · rw [hcore.2.2.2, array_split, hd1]
    exact concatOutEntry
      (fun c => (transformCore lib c dt (linspace Tmin Tmax nT.toNat) T_c L).amplitude)
      (fun v t2 => (pixelResult lib (linspace Tmin Tmax nT.toNat) dt T_c L v).2.2.2.getD t2 0)
      (fun m N2 h2 W2 hsm => (transformCoreShape hsm).2.2.2)
      (fun m N2 h2 W2 hsm t2 y2 x2 ht2 hy2 hx2 => (transformCoreEntry hsm ht2 hy2 hx2).2.2.2)
      (splitSizes H n) movie N W hs2 hne t y x ht hy2 hx

/-- Witness for C1: on a concrete 1-frame 2x2 movie split over 2 workers,
the parallel and single-call period outputs agree at pixel (1, 0). -/
theorem c1_witness :
    (run_parallel trivLib 2 demoMovie 2 1 1 2 3 none none).map
        (fun r => getEntry r.period.data 0 1 0)
      = (transform_stack trivLib demoMovie 1 1 2 3 none none).map
        (fun r => getEntry r.period.data 0 1 0) := by
  obtain ⟨rp, rs, h1, h2, h3⟩ := c1_run_parallel_matches_transform_stack
    trivLib demoMovie 1 2 2 2 2 1 1 2 3 none none
    (by decide) (by decide) (by decide) (by decide) (by decide) (by decide) (by decide)
  rw [h1, h2]
  simp only [Except.map]
  exact congrArg Except.ok (h3 0 1 0 (by decide) (by decide) (by decide)).2.1

/-- Claim C2, code evaluated at the failing input: requesting more workers
than are available does not warn-and-clamp; the warning f-string references
the undefined name `ncpu_req`, so `run_parallel` dies with `NameError`
before any processing (shown for capacity 1 with request 2, and capacity 4
with request 5). -/
theorem c2_overrequest_raises :
    run_parallel trivLib 1 tinyMovie 2 1 1 2 2 none none = Except.error nameErrorMsg
    ∧ run_parallel trivLib 4 tinyMovie 5 1 1 2 2 none none = Except.error nameErrorMsg :=
  ⟨rfl, rfl⟩

/-- Counterexample to claim C3: with `Tmin = 3 > Tmax = 1` and `dt = -1`
(a malformed period range and a non-positive sampling interval),
`transform_stack` raises no validation error and completes, and so does
`run_parallel`. -/
theorem c3_counterexample :
    (transform_stack trivLib tinyMovie (-1) 3 1 2 none none).isOk = true
    ∧ (run_parallel trivLib 1 tinyMovie 1 (-1) 3 1 2 none none).isOk = true :=
  ⟨rfl, rfl⟩

/-- Claim C3 (amended): `transform_stack` and `run_parallel` perform no
validation of the period range or of `dt`: for any library behaviour and
any parameters, `transform_stack` succeeds exactly when `nT ≥ 0` (a
negative `nT` is rejected by `np.linspace` itself), and `run_parallel`
succeeds exactly when additionally `1 ≤ n_cpu ≤ ncpu_avail`; success never
depends on `Tmin ≤ Tmax` or `dt > 0`. -/
theorem exceptOkIsOk {ε : Type u} {α : Type v} (a : α) :
    (Except.ok a : Except ε α).isOk = true := rfl

theorem exceptErrIsOk {ε : Type u} {α : Type v} (e : ε) :
    (Except.error e : Except ε α).isOk = false := rfl

theorem c3_no_validation (lib : SpectralLib) (movie : Mov) (dt Tmin Tmax : ℚ)
    (nT : ℤ) (T_c L : Option ℚ) (avail n : ℕ) :
    ((transform_stack lib movie dt Tmin Tmax nT T_c L).isOk = true ↔ 0 ≤ nT)
    ∧ ((run_parallel lib avail movie n dt Tmin Tmax nT T_c L).isOk = true
        ↔ (0 ≤ nT ∧ 1 ≤ n ∧ n ≤ avail)) := by
  constructor
  · rcases lt_or_le nT 0 with h | h
    · rw [transformStackErr lib movie dt Tmin Tmax nT T_c L h, exceptErrIsOk]
      constructor
      · intro he
        simp at he
      · intro h2
        omega
    · rw [transformStackOk lib movie dt Tmin Tmax nT T_c L h, exceptOkIsOk]
      simp [h]
  · rcases Nat.lt_or_ge avail n with hcl | hcl
    · rw [runParallelNameError lib avail movie n dt Tmin Tmax nT T_c L hcl, exceptErrIsOk]
      constructor
      · intro he
        simp at he
      · intro h2
        omega
    · rcases Nat.eq_zero_or_pos n with hn0 | hn0
      · subst hn0
        rw [run_parallel, if_neg (by omega), if_pos rfl, exceptErrIsOk]
        constructor
        · intro he
          simp at he
        · intro h2
          omega
      · rcases lt_or_le nT 0 with h | h
        · have hchunks : ∃ c cs, array_split movie n = c :: cs := by
            cases he : array_split movie n with
            | nil =>
              exfalso
              have h1 : (array_split movie n).length = n := by
                rw [array_split, movieSplitAuxLen, splitSizesLen]
              rw [he] at h1
              simp at h1
              omega
            | cons c cs => exact ⟨c, cs, rfl⟩
          rcases hchunks with ⟨c, cs, hcc⟩
          rw [run_parallel, if_neg (by omega), if_neg (by omega), hcc,
            starmapEErrHead _ c cs linspaceErrMsg
              (transformStackErr lib c dt Tmin Tmax nT T_c L h), exceptErrIsOk]
          constructor
          · intro he
            simp at he
          · intro h2
            omega
        · rw [runParallelOk lib avail movie n dt Tmin Tmax nT T_c L hn0 hcl h, exceptOkIsOk]
          constructor
          · intro _
            omega
          · intro _
            rfl

/-- Claim C4: for nT ≥ 1 and 0 < Tmin ≤ Tmax, the period grid
`np.linspace(Tmin, Tmax, nT)` has exactly nT entries, is monotonically
non-decreasing, starts at Tmin, ends at Tmax when nT > 1 and is `[Tmin]`
when nT = 1; `transform_stack` computes this grid once (for any movie a
worker receives, the transform runs the core on that same grid), and every
pixel entry of the output is computed from that identical grid. -/
theorem c4_period_grid (lib : SpectralLib) (dt Tmin Tmax : ℚ)
    (nT : ℤ) (T_c L : Option ℚ) (hnT : 1 ≤ nT) (hT0 : 0 < Tmin) (hTT : Tmin ≤ Tmax) :
    ((linspace Tmin Tmax nT.toNat).length : ℤ) = nT
    ∧ (∀ i j : ℕ, i ≤ j → (j : ℤ) < nT →
        (linspace Tmin Tmax nT.toNat).getD i 0 ≤ (linspace Tmin Tmax nT.toNat).getD j 0)
    ∧ (linspace Tmin Tmax nT.toNat).getD 0 0 = Tmin
    ∧ (1 < nT → (linspace Tmin Tmax nT.toNat).getD (nT.toNat - 1) 0 = Tmax)
    ∧ (nT = 1 → linspace Tmin Tmax nT.toNat = [Tmin])
    ∧ (∀ chunk : Mov, transform_stack lib chunk dt Tmin Tmax nT T_c L
        = Except.ok (transformCore lib chunk dt (linspace Tmin Tmax nT.toNat) T_c L))
    ∧ (∀ (movie : Mov) (N H W t y x : ℕ) (out : Out4), HasShape movie N H W →
        t < N → y < H → x < W →
        transform_stack lib movie dt Tmin Tmax nT T_c L = Except.ok out →
        getEntry out.period.data t y x
          = (pixelResult lib (linspace Tmin Tmax nT.toNat) dt T_c L
              (pixelSeries movie y x)).2.1.getD t 0) := by
  refine ⟨?_, ?_, ?_, ?_, ?_, ?_, ?_⟩
  · rw [linspaceLen]
    omega
  · intro i j hij hj
    exact linspaceMono Tmin Tmax nT.toNat i j hTT hij (by omega)
  · exact linspaceFirst Tmin Tmax nT.toNat (by omega)
  · intro h1
    exact linspaceLast Tmin Tmax nT.toNat (by omega)
  · intro h1
    have h2 : nT.toNat = 1 := by omega
    rw [h2]
    exact linspaceSingleton Tmin Tmax
  · intro chunk
    exact transformStackOk lib chunk dt Tmin Tmax nT T_c L (by omega)
  · intro movie N H W t y x out hs ht hy hx hout
    rw [transformStackOk lib movie dt Tmin Tmax nT T_c L (by omega)] at hout
    have hout2 : transformCore lib movie dt (linspace Tmin Tmax nT.toNat) T_c L = out :=
      by injection hout
    rw [← hout2]
    exact (transformCoreEntry hs ht hy hx).2.1

/-- Witness for C4 at Tmin = 1, Tmax = 2, nT = 3 on a concrete movie. -/
theorem c4_witness :
    ((linspace 1 2 (3 : ℤ).toNat).length : ℤ) = 3
    ∧ (linspace 1 2 (3 : ℤ).toNat).getD 0 0 = 1
    ∧ (linspace 1 2 (3 : ℤ).toNat).getD ((3 : ℤ).toNat - 1) 0 = 2
    ∧ transform_stack trivLib tinyMovie 1 1 2 3 none none
        = Except.ok (transformCore trivLib tinyMovie 1 (linspace 1 2 (3 : ℤ).toNat)
            none none) := by
  have h := c4_period_grid trivLib 1 1 2 3 none none (by decide) (by decide) (by decide)
  exact ⟨h.1, h.2.2.1, h.2.2.2.1 (by decide), h.2.2.2.2.2.1 tinyMovie⟩

/-- Claim C5: splitting a movie of H rows into n slices (1 ≤ n ≤ H) along
the row axis yields exactly n slices whose row counts are the
`np.array_split` sizes, sum to H and pairwise differ by at most one row,
and concatenating the slices in order reconstructs the movie exactly. -/
theorem c5_row_split (movie : Mov) (N H W n : ℕ)
    (hs : HasShape movie N H W) (hN : 1 ≤ N) (hn : 1 ≤ n) (hnH : n ≤ H) :
    (array_split movie n).length = n
    ∧ (array_split movie n).map dim1 = splitSizes H n
    ∧ ((array_split movie n).map dim1).sum = H
    ∧ (∀ a ∈ (array_split movie n).map dim1, ∀ b ∈ (array_split movie n).map dim1,
        a ≤ b + 1)
    ∧ concatAxis1 (array_split movie n) = movie := by
  have hd1 : dim1 movie = H := dim1Eq hs hN
  have hss : (splitSizes H n).sum = H := sumSplitSizes H n hn
  have hs2 : HasShape movie N ((splitSizes H n).sum) W := by rw [hss]; exact hs
  have hchunks : (array_split movie n).map dim1 = splitSizes H n := by
    rw [array_split, hd1]
    exact chunksDim1 (splitSizes H n) movie N W hN hs2
  refine ⟨?_, hchunks, ?_, ?_, ?_⟩
  · rw [array_split, movieSplitAuxLen, splitSizesLen]
  · rw [hchunks, hss]
  · rw [hchunks]
    intro a ha b hb
    rcases splitSizesMem ha with h1 | h1 <;> rcases splitSizesMem hb with h2 | h2 <;> omega
  · rw [array_split, hd1]
    apply concatMovieSplit
    · intro fr hfr
      exact ((hs.2 fr hfr).1).trans hss.symm
    · exact splitSizesNeNil hn

/-- Witness for C5: the 2-row demo movie split into 2 slices. -/
theorem c5_witness :
    (array_split demoMovie 2).length = 2
    ∧ ((array_split demoMovie 2).map dim1).sum = 2
    ∧ concatAxis1 (array_split demoMovie 2) = demoMovie := by
  have h := c5_row_split demoMovie 1 2 2 2 (by decide) (by decide) (by decide) (by decide)
  exact ⟨h.1, h.2.2.1, h.2.2.2.2⟩

/-- Claim C6: `down_sample` raises the upscaling validation error exactly
when `scale_factor > 1`, and it raises before processing any frame (the
validation branch never evaluates the rescale collaborator, so the
erroring result is independent of it).  For every `scale_factor ≤ 1` the
wrapper itself raises no validation error: on a movie with at least one
frame it succeeds with the per-frame rescale, and on a zero-frame movie
the first-frame shape probe `movie[0, ...]` raises `IndexError` — an
indexing failure, not the validation error. -/
theorem c6_down_sample_validation
    (rescale rescale2 : ℚ → List (List ℚ) → List (List ℚ))
    (movie : Mov) (scale_factor : ℚ) :
    ((down_sample rescale movie scale_factor = Except.error upscaleMsg)
        ↔ 1 < scale_factor)
    ∧ (1 < scale_factor →
        down_sample rescale movie scale_factor = down_sample rescale2 movie scale_factor)
    ∧ (scale_factor ≤ 1 →
        down_sample rescale movie scale_factor ≠ Except.error upscaleMsg)
    ∧ (scale_factor ≤ 1 → ∀ (frame0 : List (List ℚ)) (rest : Mov),
        movie = frame0 :: rest →
        down_sample rescale movie scale_factor
          = Except.ok (movie.map (fun frame => rescale scale_factor frame)))
    ∧ (scale_factor ≤ 1 → movie = [] →
        down_sample rescale movie scale_factor = Except.error indexErrorMsg) := by
  have hiff : (down_sample rescale movie scale_factor = Except.error upscaleMsg)
      ↔ 1 < scale_factor := by
    constructor
    · intro he
      by_contra hgt
      rw [down_sample.eq_def, if_neg hgt] at he
      split at he
      · injection he with h3
        exact absurd h3 (by decide)
      · exact absurd he (by simp)
    · intro h
      rw [down_sample.eq_def, if_pos h]
  refine ⟨hiff, ?_, ?_, ?_, ?_⟩
  · intro h
    rw [down_sample.eq_def, down_sample.eq_def, if_pos h, if_pos h]
  · intro h he
    exact absurd (hiff.mp he) (not_lt.mpr h)
  · intro h frame0 rest hm
    subst hm
    rw [down_sample.eq_def, if_neg (not_lt.mpr h)]
    rfl
  · intro h hm
    subst hm
    rw [down_sample.eq_def, if_neg (not_lt.mpr h)]

/-- Witness for C6: scale factor 3/2 fails with the validation error,
scale factor 1 succeeds on the nonempty demo movie, and a zero-frame
movie at scale factor 1 hits the probe's IndexError instead of a
validation error. -/
theorem c6_witness :
    down_sample (fun _ frame => frame) demoMovie (3 / 2) = Except.error upscaleMsg
    ∧ down_sample (fun _ frame => frame) demoMovie 1
        = Except.ok (demoMovie.map (fun frame => frame))
    ∧ down_sample (fun _ frame => frame) ([] : Mov) 1 = Except.error indexErrorMsg := by
  have h1 := c6_down_sample_validation (fun _ frame => frame) (fun _ frame => frame)
    demoMovie (3 / 2)
  have h2 := c6_down_sample_validation (fun _ frame => frame) (fun _ frame => frame)
    demoMovie 1
  have h3 := c6_down_sample_validation (fun _ frame => frame) (fun _ frame => frame)
    ([] : Mov) 1
  exact ⟨h1.1.mpr (by norm_num), h2.2.2.2.1 (by norm_num) [[1, 2], [3, 4]] [] rfl,
    h3.2.2.2.2 (by norm_num) rfl⟩

/-- Claim C7: on any rectangular input of shape (N, H, W), the four movies
returned by `transform_stack`, and likewise by `run_parallel`, all have
shape (N, H, W) and 32-bit floating-point dtype. -/
theorem c7_output_shape_dtype (lib : SpectralLib) (movie : Mov)
    (N H W avail n : ℕ) (dt Tmin Tmax : ℚ) (nT : ℤ) (T_c L : Option ℚ)
    (hs : HasShape movie N H W) (hN : 1 ≤ N) (hH : 1 ≤ H)
    (hn : 1 ≤ n) (hnH : n ≤ H) (hna : n ≤ avail) (hnT : 0 ≤ nT) :
    (∀ out : Out4, transform_stack lib movie dt Tmin Tmax nT T_c L = Except.ok out →
      (HasShape out.phase.data N H W ∧ HasShape out.period.data N H W
        ∧ HasShape out.power.data N H W ∧ HasShape out.amplitude.data N H W)
      ∧ (out.phase.dtype = DType.float32 ∧ out.period.dtype = DType.float32
        ∧ out.power.dtype = DType.float32 ∧ out.amplitude.dtype = DType.float32))
    ∧ (∀ out : Out4, run_parallel lib avail movie n dt Tmin Tmax nT T_c L = Except.ok out →
      (HasShape out.phase.data N H W ∧ HasShape out.period.data N H W
        ∧ HasShape out.power.data N H W ∧ HasShape out.amplitude.data N H W)
      ∧ (out.phase.dtype = DType.float32 ∧ out.period.dtype = DType.float32
        ∧ out.power.dtype = DType.float32 ∧ out.amplitude.dtype = DType.float32)) := by
  have hd1 : dim1 movie = H := dim1Eq hs hN
  have hss : (splitSizes H n).sum = H := sumSplitSizes H n hn
  have hs2 : HasShape movie N ((splitSizes H n).sum) W := by rw [hss]; exact hs
  have hne : splitSizes H n ≠ [] := splitSizesNeNil hn
  constructor
  · intro out hout
    rw [transformStackOk lib movie dt Tmin Tmax nT T_c L hnT] at hout
    have hout2 : transformCore lib movie dt (linspace Tmin Tmax nT.toNat) T_c L = out :=
      by injection hout
    rw [← hout2]
    exact ⟨transformCoreShape hs, transformCoreDtype lib movie dt _ T_c L⟩
  · intro out hout
    rw [runParallelOk lib avail movie n dt Tmin Tmax nT T_c L hn hna hnT] at hout
    have hout2 := (Except.ok.injEq _ _).mp hout
    rw [← hout2]
    have hphase := concatOutShape
      (fun c => (transformCore lib c dt (linspace Tmin Tmax nT.toNat) T_c L).phase)
      (fun m N2 h2 W2 hsm => (transformCoreShape hsm).1)
      (fun m => (transformCoreDtype lib m dt _ T_c L).1)
      (splitSizes H n) movie N W hs2 hne
    have hperiod := concatOutShape
      (fun c => (transformCore lib c dt (linspace Tmin Tmax nT.toNat) T_c L).period)
      (fun m N2 h2 W2 hsm => (transformCoreShape hsm).2.1)
      (fun m => (transformCoreDtype lib m dt _ T_c L).2.1)
      (splitSizes H n) movie N W hs2 hne
    have hpower := concatOutShape
      (fun c => (transformCore lib c dt (linspace Tmin Tmax nT.toNat) T_c L).power)
      (fun m N2 h2 W2 hsm => (transformCoreShape hsm).2.2.1)
      (fun m => (transformCoreDtype lib m dt _ T_c L).2.2.1)
      (splitSizes H n) movie N W hs2 hne
    have hamp := concatOutShape
      (fun c => (transformCore lib c dt (linspace Tmin Tmax nT.toNat) T_c L).amplitude)
      (fun m N2 h2 W2 hsm => (transformCoreShape hsm).2.2.2)
      (fun m => (transformCoreDtype lib m dt _ T_c L).2.2.2)
      (splitSizes H n) movie N W hs2 hne
    rw [hss] at hphase hperiod hpower hamp
    refine ⟨⟨?_, ?_, ?_, ?_⟩, ?_, ?_, ?_, ?_⟩
    · rw [array_split, hd1]; exact hphase.1
    · rw [array_split, hd1]; exact hperiod.1
    · rw [array_split, hd1]; exact hpower.1
    · rw [array_split, hd1]; exact hamp.1
    · rw [array_split, hd1]; exact hphase.2
    · rw [array_split, hd1]; exact hperiod.2
    · rw [array_split, hd1]; exact hpower.2
    · rw [array_split, hd1]; exact hamp.2

/-- Witness for C7 on the demo movie with 2 workers. -/
theorem c7_witness :
    HasShape (transformCore trivLib demoMovie 1 (linspace 1 2 (3 : ℤ).toNat)
        none none).phase.data 1 2 2
    ∧ (transformCore trivLib demoMovie 1 (linspace 1 2 (3 : ℤ).toNat)
        none none).phase.dtype = DType.float32 := by
  have h := c7_output_shape_dtype trivLib demoMovie 1 2 2 2 2 1 1 2 3 none none
    (by decide) (by decide) (by decide) (by decide) (by decide) (by decide) (by decide)
  have h2 := h.1 (transformCore trivLib demoMovie 1 (linspace 1 2 (3 : ℤ).toNat) none none)
    (transformStackOk trivLib demoMovie 1 1 2 3 none none (by decide))
  exact ⟨h2.1.1, h2.2.1⟩

/-- Claim C8: in the per-pixel pipeline of `transform_stack`, the series
entering the spectral transform is the raw series when T_c and L are both
omitted; the sinc-detrended series (trend computed from the raw input with
cutoff T_c) when only T_c is given; the envelope-normalized series when
only L is given; and the envelope-normalized detrended series when both
are given.  The per-pixel output columns of `transform_stack` are exactly
the pixel pipeline applied to that pixel series. -/
theorem c8_preprocessing_branches (lib : SpectralLib) (g : List ℚ) (dt : ℚ)
    (v : List ℚ) (tc wl : ℚ) :
    pixelResult lib g dt none none v = pixelFrom lib g dt v
    ∧ pixelResult lib g dt (some tc) none v
        = pixelFrom lib g dt (listSub v (lib.sinc_smooth v tc dt))
    ∧ pixelResult lib g dt none (some wl) v
        = pixelFrom lib g dt (lib.normalize_with_envelope v wl dt)
    ∧ pixelResult lib g dt (some tc) (some wl) v
        = pixelFrom lib g dt
            (lib.normalize_with_envelope (listSub v (lib.sinc_smooth v tc dt)) wl dt)
    ∧ (∀ (movie : Mov) (N H W t y x : ℕ) (Tmin Tmax : ℚ) (nT : ℤ)
        (T_c L : Option ℚ) (out : Out4),
        HasShape movie N H W → t < N → y < H → x < W →
        transform_stack lib movie dt Tmin Tmax nT T_c L = Except.ok out →
        getEntry out.phase.data t y x
          = (pixelResult lib (linspace Tmin Tmax nT.toNat) dt T_c L
              (pixelSeries movie y x)).1.getD t 0) := by
  refine ⟨rfl, rfl, rfl, rfl, ?_⟩
  intro movie N H W t y x Tmin Tmax nT T_c L out hs ht hy hx hout
  rcases lt_or_le nT 0 with hneg | hpos
  · rw [transformStackErr lib movie dt Tmin Tmax nT T_c L hneg] at hout
    exact absurd hout (by simp)
  · rw [transformStackOk lib movie dt Tmin Tmax nT T_c L hpos] at hout
    have hout2 : transformCore lib movie dt (linspace Tmin Tmax nT.toNat) T_c L = out :=
      by injection hout
    rw [← hout2]
    exact (transformCoreEntry hs ht hy hx).1

/-- Witness for C8 at a concrete library, series and window sizes. -/
theorem c8_witness :
    pixelResult trivLib (linspace 1 2 3) 1 (some 5) none [1, 2]
      = pixelFrom trivLib (linspace 1 2 3) 1
          (listSub [1, 2] (trivLib.sinc_smooth [1, 2] 5 1))
    ∧ getEntry (transformCore trivLib demoMovie 1 (linspace 1 2 (3 : ℤ).toNat)
          none none).phase.data 0 0 1
        = (pixelResult trivLib (linspace 1 2 (3 : ℤ).toNat) 1 none none
            (pixelSeries demoMovie 0 1)).1.getD 0 0 := by
  have h := c8_preprocessing_branches trivLib (linspace 1 2 3) 1 [1, 2] 5 7
  refine ⟨h.2.1, ?_⟩
  exact h.2.2.2.2 demoMovie 1 2 2 0 0 1 1 2 3 none none
    (transformCore trivLib demoMovie 1 (linspace 1 2 (3 : ℤ).toNat) none none)
    (by decide) (by decide) (by decide) (by decide)
    (transformStackOk trivLib demoMovie 1 1 2 3 none none (by decide))

/-! ### A store model for the frame effect (claim C10)

To state that `transform_stack` and `run_parallel` never modify their
input array, the numpy arrays are given identities in a store: allocation
(`np.zeros`, worker chunk copies, `np.concatenate` results) uses fresh
identifiers, and every element assignment of the source targets one of the
freshly allocated output arrays.  `arrays` maps identifiers to contents
and `next` is the allocation counter. -/

structure Heap where
  arrays : ℕ → Mov
  next : ℕ

/-- Allocate a new array, returning the extended heap; the new array gets
identifier `h.next`. -/
def halloc (h : Heap) (m : Mov) : Heap :=
  { arrays := fun i => if i = h.next then m else h.arrays i, next := h.next + 1 }

/-- `arrays[aid][:, y, x] = vals`: an element assignment targeting the
array named `aid`. -/
def hwriteCol (h : Heap) (aid y x : ℕ) (vals : List ℚ) : Heap :=
  { arrays := fun i => if i = aid then setColumn (h.arrays i) y x vals else h.arrays i
    next := h.next }

/-- `np.zeros(movie.shape, ...)` contents. -/
def zerosLike (m : Mov) : Mov := zerosMovie m.length (dim1 m) (dim2 m)

/-- The body of `transform_stack` over the store: allocate the four output
arrays (period, phase, power, amplitude in source order), then run the
pixel loop, reading the input array from the store and writing the four
result columns into the four output arrays.  Returns the final store and
the identifiers (phase, period, power, amplitude) of the returned
arrays. -/
def tshBody (lib : SpectralLib) (h : Heap) (inputId : ℕ) (periods : List ℚ)
    (dt : ℚ) (T_c L : Option ℚ) : Heap × ℕ × ℕ × ℕ × ℕ :=
  let movie := h.arrays inputId
  let periodId := h.next
  let h1 := halloc h (zerosLike movie)
  let phaseId := h1.next
  let h2 := halloc h1 (zerosLike movie)
  let powerId := h2.next
  let h3 := halloc h2 (zerosLike movie)
  let amplitudeId := h3.next
  let h4 := halloc h3 (zerosLike movie)
  let hFinal := (pixelList (dim2 movie) (dim1 movie)).foldl (fun hc p =>
    let input_vec := pixelSeries (hc.arrays inputId) p.2 p.1
    let r := pixelResult lib periods dt T_c L input_vec
    let ha := hwriteCol hc phaseId p.2 p.1 r.1
    let hb := hwriteCol ha periodId p.2 p.1 r.2.1
    let hcc := hwriteCol hb powerId p.2 p.1 r.2.2.1
    hwriteCol hcc amplitudeId p.2 p.1 r.2.2.2) h4
  (hFinal, phaseId, periodId, powerId, amplitudeId)

/-- `transform_stack` over the store. -/
def transform_stack_heap (lib : SpectralLib) (h : Heap) (inputId : ℕ)
    (dt Tmin Tmax : ℚ) (nT : ℤ) (T_c L : Option ℚ) :
    Except String (Heap × ℕ × ℕ × ℕ × ℕ) :=
  match linspaceE Tmin Tmax nT with
  | Except.error e => Except.error e
  | Except.ok periods => Except.ok (tshBody lib h inputId periods dt T_c L)

/-- The worker loop of `run_parallel` over the store: each worker receives
a fresh copy of its chunk (multiprocessing pickles the slice into the
worker) and runs `transform_stack` on it; the id quadruples of all worker
results are collected in dispatch order. -/
def runWorkers (lib : SpectralLib) (dt Tmin Tmax : ℚ) (nT : ℤ) (T_c L : Option ℚ) :
    Heap → List Mov → Except String (Heap × List (ℕ × ℕ × ℕ × ℕ))
  | h, [] => Except.ok (h, [])
  | h, c :: cs =>
    match transform_stack_heap lib (halloc h c) h.next dt Tmin Tmax nT T_c L with
    | Except.error e => Except.error e
    | Except.ok (h2, phId, peId, poId, amId) =>
      match runWorkers lib dt Tmin Tmax nT T_c L h2 cs with
      | Except.error e => Except.error e
      | Except.ok (h3, rest) => Except.ok (h3, (phId, peId, poId, amId) :: rest)

/-- `run_parallel` over the store: the same two error branches as
`run_parallel`, then split the input (a pure read), run the workers, and
allocate the four `np.concatenate` results (phase, period, power,
amplitude in source order). -/
def run_parallel_heap (lib : SpectralLib) (ncpu_avail : ℕ) (h : Heap)
    (inputId : ℕ) (n_cpu : ℕ) (dt Tmin Tmax : ℚ) (nT : ℤ) (T_c L : Option ℚ) :
    Except String (Heap × ℕ × ℕ × ℕ × ℕ) :=
  if ncpu_avail < n_cpu then Except.error nameErrorMsg
  else if n_cpu = 0 then Except.error poolErrorMsg
  else
    match runWorkers lib dt Tmin Tmax nT T_c L h (array_split (h.arrays inputId) n_cpu) with
    | Except.error e => Except.error e
    | Except.ok (h1, results) =>
      let phaseId := h1.next
      let h2 := halloc h1 (concatAxis1 (results.map (fun ids => h1.arrays ids.1)))
      let periodId := h2.next
      let h3 := halloc h2 (concatAxis1 (results.map (fun ids => h1.arrays ids.2.1)))
      let powerId := h3.next
      let h4 := halloc h3 (concatAxis1 (results.map (fun ids => h1.arrays ids.2.2.1)))
      let amplitudeId := h4.next
      let h5 := halloc h4 (concatAxis1 (results.map (fun ids => h1.arrays ids.2.2.2)))
      Except.ok (h5, phaseId, periodId, powerId, amplitudeId)

/-- `h2` extends `h`: the allocation counter has not decreased and every
array allocated before `h` is unchanged. -/
def Preserves (h h2 : Heap) : Prop :=
  h.next ≤ h2.next ∧ ∀ j, j < h.next → h2.arrays j = h.arrays j

theorem preservesRefl (h : Heap) : Preserves h h := ⟨le_refl _, fun _ _ => rfl⟩

theorem preservesTrans {a b c : Heap} (hab : Preserves a b) (hbc : Preserves b c) :
    Preserves a c :=
  ⟨le_trans hab.1 hbc.1,
    fun j hj => (hbc.2 j (lt_of_lt_of_le hj hab.1)).trans (hab.2 j hj)⟩

theorem preservesAlloc (h : Heap) (m : Mov) : Preserves h (halloc h m) := by
  refine ⟨by simp [halloc], fun j hj => ?_⟩
  simp only [halloc]
  rw [if_neg (by omega)]

theorem preservesWriteFrom {h hc : Heap} (aid y x : ℕ) (vals : List ℚ)
    (hP : Preserves h hc) (hge : h.next ≤ aid) :
    Preserves h (hwriteCol hc aid y x vals) := by
  refine ⟨by simpa [hwriteCol] using hP.1, fun j hj => ?_⟩
  simp only [hwriteCol]
  rw [if_neg (by omega)]
  exact hP.2 j hj

theorem foldWritePreserves (lib : SpectralLib) (periods : List ℚ) (dt : ℚ)
    (T_c L : Option ℚ) (inputId phaseId periodId powerId amplitudeId : ℕ)
    (h : Heap) (hph : h.next ≤ phaseId) (hpe : h.next ≤ periodId)
    (hpo : h.next ≤ powerId) (ham : h.next ≤ amplitudeId) :
    ∀ (ps : List (ℕ × ℕ)) (hc : Heap), Preserves h hc →
    Preserves h (ps.foldl (fun hc p =>
      let input_vec := pixelSeries (hc.arrays inputId) p.2 p.1
      let r := pixelResult lib periods dt T_c L input_vec
      let ha := hwriteCol hc phaseId p.2 p.1 r.1
      let hb := hwriteCol ha periodId p.2 p.1 r.2.1
      let hcc := hwriteCol hb powerId p.2 p.1 r.2.2.1
      hwriteCol hcc amplitudeId p.2 p.1 r.2.2.2) hc) := by
  intro ps
  induction ps with
  | nil => intro hc hP; exact hP
  | cons p ps ih =>
    intro hc hP
    rw [List.foldl_cons]
    exact ih _ (preservesWriteFrom _ _ _ _ (preservesWriteFrom _ _ _ _
      (preservesWriteFrom _ _ _ _ (preservesWriteFrom _ _ _ _ hP hph) hpe) hpo) ham)

theorem tshBodyPreserves (lib : SpectralLib) (h : Heap) (inputId : ℕ)
    (periods : List ℚ) (dt : ℚ) (T_c L : Option ℚ) :
    Preserves h (tshBody lib h inputId periods dt T_c L).1 := by
  have hstart : Preserves h (halloc (halloc (halloc (halloc h
      (zerosLike (h.arrays inputId))) (zerosLike (h.arrays inputId)))
      (zerosLike (h.arrays inputId))) (zerosLike (h.arrays inputId))) :=
    preservesTrans (preservesAlloc _ _) (preservesTrans (preservesAlloc _ _)
      (preservesTrans (preservesAlloc _ _) (preservesAlloc _ _)))
  exact foldWritePreserves lib periods dt T_c L inputId
    (h.next + 1) h.next (h.next + 2) (h.next + 3) h
    (by omega) (le_refl _) (by omega) (by omega)
    (pixelList (dim2 (h.arrays inputId)) (dim1 (h.arrays inputId))) _ hstart

theorem tshPreserves {lib : SpectralLib} {h : Heap} {inputId : ℕ}
    {dt Tmin Tmax : ℚ} {nT : ℤ} {T_c L : Option ℚ} {h2 : Heap} {p1 p2 p3 p4 : ℕ}
    (hE : transform_stack_heap lib h inputId dt Tmin Tmax nT T_c L
      = Except.ok (h2, p1, p2, p3, p4)) :
    Preserves h h2 := by
  cases hL : linspaceE Tmin Tmax nT with
  | error e =>
    simp only [transform_stack_heap, hL] at hE
    exact absurd hE (by simp)
  | ok g =>
    simp only [transform_stack_heap, hL] at hE
    have h3 : tshBody lib h inputId g dt T_c L = (h2, p1, p2, p3, p4) := by
      injection hE
    have h4 := tshBodyPreserves lib h inputId g dt T_c L
    rw [h3] at h4
    exact h4

theorem runWorkersPreserves (lib : SpectralLib) (dt Tmin Tmax : ℚ) (nT : ℤ)
    (T_c L : Option ℚ) :
    ∀ (cs : List Mov) (h h3 : Heap) (ids : List (ℕ × ℕ × ℕ × ℕ)),
    runWorkers lib dt Tmin Tmax nT T_c L h cs = Except.ok (h3, ids) →
    Preserves h h3 := by
  intro cs
  induction cs with
  | nil =>
    intro h h3 ids hE
    simp only [runWorkers] at hE
    have h4 : (h, ([] : List (ℕ × ℕ × ℕ × ℕ))) = (h3, ids) := by injection hE
    rw [Prod.mk.injEq] at h4
    exact h4.1 ▸ preservesRefl h
  | cons c cs ih =>
    intro h h3 ids hE
    simp only [runWorkers] at hE
    cases hT : transform_stack_heap lib (halloc h c) h.next dt Tmin Tmax nT T_c L with
    | error e =>
      simp only [hT] at hE
      exact absurd hE (by simp)
    | ok r =>
      obtain ⟨h2, p1, p2, p3, p4⟩ := r
      simp only [hT] at hE
      cases hR : runWorkers lib dt Tmin Tmax nT T_c L h2 cs with
      | error e =>
        simp only [hR] at hE
        exact absurd hE (by simp)
      | ok r2 =>
        obtain ⟨h4, rest⟩ := r2
        simp only [hR] at hE
        have h5 : (h4, (p1, p2, p3, p4) :: rest) = (h3, ids) := by injection hE
        rw [Prod.mk.injEq] at h5
        exact h5.1 ▸ preservesTrans (preservesAlloc h c)
          (preservesTrans (tshPreserves hT) (ih h2 h4 rest hR))

theorem rphPreserves {lib : SpectralLib} {avail : ℕ} {h : Heap} {inputId n : ℕ}
    {dt Tmin Tmax : ℚ} {nT : ℤ} {T_c L : Option ℚ} {hF : Heap} {p1 p2 p3 p4 : ℕ}
    (hE : run_parallel_heap lib avail h inputId n dt Tmin Tmax nT T_c L
      = Except.ok (hF, p1, p2, p3, p4)) :
    Preserves h hF := by
  simp only [run_parallel_heap] at hE
  split at hE
  · exact absurd hE (by simp)
  · split at hE
    · exact absurd hE (by simp)
    · cases hR : runWorkers lib dt Tmin Tmax nT T_c L h
          (array_split (h.arrays inputId) n) with
      | error e =>
        simp only [hR] at hE
        exact absurd hE (by simp)
      | ok r =>
        obtain ⟨h1, results⟩ := r
        simp only [hR] at hE
        have h5 := (Except.ok.injEq _ _).mp hE
        rw [Prod.mk.injEq] at h5
        have hw : Preserves h h1 :=
          runWorkersPreserves lib dt Tmin Tmax nT T_c L _ h h1 results hR
        have hAll : Preserves h1 (halloc (halloc (halloc (halloc h1
            (concatAxis1 (results.map (fun ids => h1.arrays ids.1))))
            (concatAxis1 (results.map (fun ids => h1.arrays ids.2.1))))
            (concatAxis1 (results.map (fun ids => h1.arrays ids.2.2.1))))
            (concatAxis1 (results.map (fun ids => h1.arrays ids.2.2.2)))) :=
          preservesTrans (preservesAlloc _ _) (preservesTrans (preservesAlloc _ _)
            (preservesTrans (preservesAlloc _ _) (preservesAlloc _ _)))
        exact h5.1 ▸ preservesTrans hw hAll

/-- Claim C10: neither `transform_stack` nor `run_parallel` modifies its
input movie.  In the store model, whatever the outcome, the array named
`inputId` (allocated before the call) holds the same contents in the final
store as in the initial one: the pipeline reads pixel series from it and
writes only into the freshly allocated output arrays. -/
theorem c10_input_not_modified (lib : SpectralLib) (dt Tmin Tmax : ℚ)
    (nT : ℤ) (T_c L : Option ℚ) (avail n : ℕ) (h : Heap) (inputId : ℕ)
    (hlt : inputId < h.next) :
    ((transform_stack_heap lib h inputId dt Tmin Tmax nT T_c L).map
        (fun r => r.1.arrays inputId)
      = (transform_stack_heap lib h inputId dt Tmin Tmax nT T_c L).map
        (fun _ => h.arrays inputId))
    ∧ ((run_parallel_heap lib avail h inputId n dt Tmin Tmax nT T_c L).map
        (fun r => r.1.arrays inputId)
      = (run_parallel_heap lib avail h inputId n dt Tmin Tmax nT T_c L).map
        (fun _ => h.arrays inputId)) := by
  constructor
  · cases hE : transform_stack_heap lib h inputId dt Tmin Tmax nT T_c L with
    | error e => rfl
    | ok r =>
      obtain ⟨h2, p1, p2, p3, p4⟩ := r
      simp only [Except.map]
      exact congrArg Except.ok ((tshPreserves hE).2 inputId hlt)
  · cases hE : run_parallel_heap lib avail h inputId n dt Tmin Tmax nT T_c L with
    | error e => rfl
    | ok r =>
      obtain ⟨h2, p1, p2, p3, p4⟩ := r
      simp only [Except.map]
      exact congrArg Except.ok ((rphPreserves hE).2 inputId hlt)

/-- A concrete one-array store for the C10 witness. -/
def c10Heap : Heap := { arrays := fun _ => tinyMovie, next := 1 }

/-- Witness for C10 on a concrete store holding one 1x1x1 movie. -/
theorem c10_witness :
    ((transform_stack_heap trivLib c10Heap 0 1 1 2 2 none none).map
        (fun r => r.1.arrays 0)
      = (transform_stack_heap trivLib c10Heap 0 1 1 2 2 none none).map
        (fun _ => c10Heap.arrays 0))
    ∧ ((run_parallel_heap trivLib 1 c10Heap 0 1 1 1 2 2 none none).map
        (fun r => r.1.arrays 0)
      = (run_parallel_heap trivLib 1 c10Heap 0 1 1 1 2 2 none none).map
        (fun _ => c10Heap.arrays 0)) :=
  c10_input_not_modified trivLib 1 1 2 2 none none 1 1 c10Heap 0 (by decide)

end SpyBOAT
